import Mathlib

/-!
Verification of the VEM polygenic-risk-score core.

The repository holds two near-identical coordinate-ascent variational EM
implementations over banded LD blocks:

* the global-residual variant (class vem_prs_opt in vem_c_opt.pyx), which
  keeps a single scalar residual variance sigma_epsilon and an auxiliary
  per-variant accumulator q, and
* the per-variant-residual variant (class vem_prs_sbayes in vem_c_sbayes.pyx),
  which keeps a per-variant residual-variance array sig_e_snp and a scalar
  ld_prod.

Numeric state is embedded over the rationals.  Arrays are embedded as
functions from the variant index; each block carries its size m, and only
indices below m are meaningful.  The transcendental functions (log, the
sigmoid) and the constants pi and e of the host numerics are kept abstract as
parameters of the embedding: every theorem below holds uniformly in them, so
it applies in particular to their real-valued versions.  Randomized
initialization is embedded by passing the drawn values explicitly (a Draws
record); the distributional ranges of the draws are not modeled.
-/

/-- Modelled from the spec: the clipping helper imported from the repository's
c_utils module (whose source is not provided): clamp a value into the closed
interval from lo to hi.  The spec describes every update site as clipped to
fixed small and large bounds. -/
def clip (x lo hi : ℚ) : ℚ := max lo (min x hi)

/-- numpy clip with both bounds: values below lo become lo, values above hi
become hi. -/
def npClip (x lo hi : ℚ) : ℚ := min hi (max lo x)

/-- numpy clip with lower bound lo and an infinite upper bound, as in
np.clip(x, 1e-12, np.inf). -/
def npClipLo (x lo : ℚ) : ℚ := max lo x

/-- The transcendental functions and constants of the host numerics, kept
abstract: rlog embeds log, sigmoid embeds the logistic function from c_utils,
piC and eC embed numpy's constants pi and e. -/
structure TransFn where
  rlog : ℚ → ℚ
  sigmoid : ℚ → ℚ
  piC : ℚ
  eC : ℚ

/-- Pointwise update of an array embedded as a function from the index. -/
def aupd (f : ℕ → ℚ) (i : ℕ) (v : ℚ) : ℕ → ℚ := fun j => if j = i then v else f j

/-- dot(Di, v[a:b]) for a banded LD row stored over the window [a, b):
the row is addressed by absolute variant index. -/
def wdot (d v : ℕ → ℚ) (a b : ℕ) : ℚ := Finset.sum (Finset.Ico a b) (fun j => d j * v j)

/-- Full-array dot product over the indices below m. -/
def fdot (f g : ℕ → ℚ) (m : ℕ) : ℚ := Finset.sum (Finset.range m) (fun i => f i * g i)

/-- Full-array sum over the indices below m. -/
def fsum (f : ℕ → ℚ) (m : ℕ) : ℚ := Finset.sum (Finset.range m) f

/-- The values produced by the random number generator during initialization:
one value per global parameter and one per variational array entry (indexed by
block position and variant index). -/
structure Draws where
  sigmaBeta : ℚ
  sigmaEpsilon : ℚ
  pi : ℚ
  gamma : ℕ → ℕ → ℚ
  mu : ℕ → ℕ → ℚ

namespace VOpt

/-- One LD block of the global-residual variant: the immutable inputs (size,
beta_hat, the banded ld rows addressed by absolute index, the window bounds),
the per-variant variational arrays gamma, mu, sigma, and the helper q. -/
structure Block where
  m : ℕ
  betaHat : ℕ → ℚ
  ld : ℕ → ℕ → ℚ
  lo : ℕ → ℕ
  hi : ℕ → ℕ
  gamma : ℕ → ℚ
  mu : ℕ → ℚ
  sigma : ℕ → ℚ
  q : ℕ → ℚ

instance : Inhabited Block :=
  ⟨⟨0, fun _ => 0, fun _ _ => 0, id, id, fun _ => 0, fun _ => 0, fun _ => 0, fun _ => 0⟩⟩

/-- Full state of vem_prs_opt: sample size n, total variant count mTot,
the scale_prior flag, the fixed-parameter configuration (None when the
parameter is free), the three global scalars, the blocks, and the history
lists. -/
structure State where
  n : ℚ
  mTot : ℚ
  scalePrior : Bool
  fixPi : Option ℚ
  fixSigmaBeta : Option ℚ
  fixSigmaEpsilon : Option ℚ
  pi : ℚ
  sigmaBeta : ℚ
  sigmaEpsilon : ℚ
  blocks : List Block
  histElbo : List ℚ
  histPi : List ℚ
  histSigmaBeta : List ℚ
  histSigmaEpsilon : List ℚ
  histHer : List ℚ

/-- The per-E-step constants of vem_prs_opt.e_step, computed once from the
globals before the block loop: the prior variance, the mu denominator, the
constant var_sigma_beta value, and log(pi/(1-pi)). -/
structure Ctx where
  tr : TransFn
  n : ℚ
  sigmaEpsilon : ℚ
  priorVar : ℚ
  denom : ℚ
  sigmaConst : ℚ
  logPi : ℚ

/-- Build the E-step constants from the current state, as e_step does. -/
def mkCtx (tr : TransFn) (s : State) : Ctx :=
  let pv := if s.scalePrior then s.sigmaEpsilon * s.sigmaBeta else s.sigmaBeta
  { tr := tr
    n := s.n
    sigmaEpsilon := s.sigmaEpsilon
    priorVar := pv
    denom := 1 + s.sigmaEpsilon / (s.n * pv)
    sigmaConst := s.sigmaEpsilon / (s.n + s.sigmaEpsilon / pv)
    logPi := tr.rlog (s.pi / (1 - s.pi)) }

/-- The mutable arrays of one sequential E-step pass: mu, gamma, the running
expected-effect array var_prod, and the freshly zeroed q. -/
structure Pass where
  mu : ℕ → ℚ
  gamma : ℕ → ℚ
  vp : ℕ → ℚ
  q : ℕ → ℚ

/-- One iteration of the sequential per-variant loop of vem_prs_opt.e_step at
variant i: update mu[i] from the LD-corrected marginal effect, gamma[i] from
the clipped sigmoid, var_prod[i] immediately, and maintain q incrementally
(assign q[i] from the already-processed window part, add i's fresh
contribution to the q of every earlier variant in the window). -/
def eIter (C : Ctx) (b : Block) (st : Pass) (i : ℕ) : Pass :=
  let muI := (b.betaHat i - wdot (b.ld i) st.vp (b.lo i) (b.hi i) + b.ld i i * st.vp i) / C.denom
  let u := C.logPi + (1/2) * C.tr.rlog (C.sigmaConst / C.priorVar)
      + ((1/2) / C.sigmaConst) * muI * muI
  let g := clip (C.tr.sigmoid u) (1/1000000) (1 - 1/1000000)
  let vp2 := aupd st.vp i (g * muI)
  let q2 := if b.lo i < i then
      fun j => if j = i then wdot (b.ld i) vp2 (b.lo i) i
        else if b.lo i ≤ j ∧ j < i then st.q j + b.ld i j * (g * muI) else st.q j
    else st.q
  ⟨aupd st.mu i muI, aupd st.gamma i g, vp2, q2⟩

/-- The whole sequential pass over a block: fold the per-variant update over
the indices 0, ..., m-1 starting from the current arrays, var_prod initialized
to gamma * mu and q to zeros. -/
def ePass (C : Ctx) (b : Block) : Pass :=
  (List.range b.m).foldl (eIter C b) ⟨b.mu, b.gamma, fun j => b.gamma j * b.mu j, fun _ => 0⟩

/-- E-step effect on one block: run the pass and store the results; the
var_sigma_beta array is set to the constant sigma_epsilon/(N + sigma_epsilon/
prior_var) before the pass. -/
def eStepBlock (C : Ctx) (b : Block) : Block :=
  let r := ePass C b
  { b with mu := r.mu, gamma := r.gamma, sigma := fun _ => C.sigmaConst, q := r.q }

/-- vem_prs_opt.e_step: process every block with the shared constants. -/
def eStep (tr : TransFn) (s : State) : State :=
  { s with blocks := s.blocks.map (eStepBlock (mkCtx tr s)) }

/-- Sum of all var_gamma entries over all blocks. -/
def gammaSum (s : State) : ℚ := (s.blocks.map (fun b => fsum b.gamma b.m)).sum

/-- vem_prs_opt.m_step: update pi (clipped to [1/M, 1]) unless fixed, then
sigma_beta (clipped to [1e-12, 1e12]) unless fixed, then sigma_epsilon
(clipped to [1e-12, 1e12]) unless fixed, appending each (possibly unchanged)
value to its history list. -/
def mStep (s : State) : State :=
  let vgs := gammaSum s
  let pi2 := if s.fixPi = none then clip (vgs / s.mTot) (1 / s.mTot) 1 else s.pi
  let sb0 := (s.blocks.map (fun b => fdot b.gamma (fun i => b.mu i ^ 2 + b.sigma i) b.m)).sum / vgs
  let sb1 := if s.scalePrior then sb0 / s.sigmaEpsilon else sb0
  let sb2 := if s.fixSigmaBeta = none then clip sb1 (1/1000000000000) 1000000000000
    else s.sigmaBeta
  let adj := if s.scalePrior then 1 + 1 / (s.n * sb2) else 1
  let sigEps := (s.blocks.map (fun b =>
      -2 * fdot (fun i => b.gamma i * b.mu i) b.betaHat b.m
      + adj * fdot b.gamma (fun i => b.mu i ^ 2 + b.sigma i) b.m
      + fdot (fun i => b.gamma i * b.mu i) b.q b.m)).sum
  let fin0 := 1 + sigEps
  let fin1 := if s.scalePrior then fin0 * (s.n / (s.n + vgs)) else fin0
  let se2 := if s.fixSigmaEpsilon = none then clip fin1 (1/1000000000000) 1000000000000
    else s.sigmaEpsilon
  { s with
    pi := pi2, sigmaBeta := sb2, sigmaEpsilon := se2,
    histPi := s.histPi ++ [pi2],
    histSigmaBeta := s.histSigmaBeta ++ [sb2],
    histSigmaEpsilon := s.histSigmaEpsilon ++ [se2] }

/-- The ELBO value computed by vem_prs_opt.objective from the current state. -/
def elboVal (tr : TransFn) (s : State) : ℚ :=
  let pv := if s.scalePrior then s.sigmaEpsilon * s.sigmaBeta else s.sigmaBeta
  let l0 := -(1/2) * s.n * (tr.rlog (2 * tr.piC * s.sigmaEpsilon) + 1 / s.sigmaEpsilon)
      - (1/2) * s.mTot * tr.rlog (2 * tr.piC * pv)
      + s.mTot * tr.rlog (1 - s.pi)
  let e0 := (1/2) * s.mTot * tr.rlog (2 * tr.piC * tr.eC * pv)
  let lb := (s.blocks.map (fun b =>
      (-(1/2) * s.n / s.sigmaEpsilon) *
        (-2 * fdot (fun i => b.gamma i * b.mu i) b.betaHat b.m
         + fdot (fun i => b.gamma i * b.mu i) b.q b.m
         + fsum (fun i => b.gamma i * (b.mu i ^ 2 + b.sigma i)) b.m)
      + (-(1/2) / pv) *
        (fsum (fun i => b.gamma i * (b.mu i ^ 2 + b.sigma i)) b.m
         + pv * fsum (fun i => 1 - b.gamma i) b.m)
      + tr.rlog (s.pi / (1 - s.pi)) * fsum b.gamma b.m)).sum
  let eb := (s.blocks.map (fun b =>
      (1/2) * fdot b.gamma (fun i => tr.rlog (b.sigma i / pv)) b.m
      - fdot b.gamma (fun i => tr.rlog (b.gamma i / (1 - b.gamma i))) b.m
      - fsum (fun i => tr.rlog (1 - b.gamma i)) b.m)).sum
  l0 + lb + (e0 + eb)

/-- vem_prs_opt.objective as a state transformer: append the ELBO to its
history. -/
def objectiveStep (tr : TransFn) (s : State) : State :=
  { s with histElbo := s.histElbo ++ [elboVal tr s] }

/-- The heritability value computed by vem_prs_opt.get_heritability. -/
def herVal (s : State) : ℚ :=
  let sg := (s.blocks.map (fun b =>
      fsum (fun i => b.gamma i * (b.mu i ^ 2 + b.sigma i)) b.m
      + fdot b.q (fun i => b.gamma i * b.mu i) b.m)).sum
  sg / (sg + s.sigmaEpsilon)

/-- vem_prs_opt.get_heritability as a state transformer: append to its
history. -/
def herStep (s : State) : State := { s with histHer := s.histHer ++ [herVal s] }

/-- vem_prs_opt.initialize_variational_params: redraw gamma and mu, set
var_sigma_beta to the constant 1/M, zero q. -/
def initVar (d : Draws) (s : State) : State :=
  { s with blocks := s.blocks.mapIdx (fun bi b =>
      { b with
        q := fun _ => 0, gamma := d.gamma bi, mu := d.mu bi,
        sigma := fun _ => 1 / s.mTot }) }

/-- vem_prs_opt.initialize_theta: each global parameter is copied verbatim
from the fixed-parameter configuration when present, and otherwise takes the
drawn value. -/
def initTheta (d : Draws) (s : State) : State :=
  { s with
    sigmaBeta := s.fixSigmaBeta.getD d.sigmaBeta,
    sigmaEpsilon := s.fixSigmaEpsilon.getD d.sigmaEpsilon,
    pi := s.fixPi.getD d.pi }

/-- vem_prs_opt.init_history: reset every history list to empty. -/
def initHist (s : State) : State :=
  { s with
    histElbo := [], histPi := [], histSigmaBeta := [],
    histSigmaEpsilon := [], histHer := [] }

/-- vem_prs_opt.initialize: variational parameters, then theta, then
history. -/
def initModel (d : Draws) (s : State) : State := initHist (initTheta d (initVar d s))

/-- One fit iteration of vem_prs_opt.fit: e_step, m_step, objective,
get_heritability, in that order. -/
def fitStep (tr : TransFn) (s : State) : State :=
  herStep (objectiveStep tr (mStep (eStep tr s)))

end VOpt

namespace VSB

/-- One LD block of the per-variant-residual variant: the immutable inputs
(size, beta_hat, yy, the banded ld rows addressed by absolute index, the
window bounds), the variational arrays, and the per-variant residual variance
sig_e_snp. -/
structure Block where
  m : ℕ
  betaHat : ℕ → ℚ
  yy : ℕ → ℚ
  ld : ℕ → ℕ → ℚ
  lo : ℕ → ℕ
  hi : ℕ → ℕ
  gamma : ℕ → ℚ
  mu : ℕ → ℚ
  sigma : ℕ → ℚ
  sigE : ℕ → ℚ

instance : Inhabited Block :=
  ⟨⟨0, fun _ => 0, fun _ => 0, fun _ _ => 0, id, id,
    fun _ => 0, fun _ => 0, fun _ => 0, fun _ => 0⟩⟩

/-- Full state of vem_prs_sbayes, with the extra scalar ld_prod. -/
structure State where
  n : ℚ
  mTot : ℚ
  scalePrior : Bool
  fixPi : Option ℚ
  fixSigmaBeta : Option ℚ
  fixSigmaEpsilon : Option ℚ
  pi : ℚ
  sigmaBeta : ℚ
  sigmaEpsilon : ℚ
  ldProd : ℚ
  blocks : List Block
  histElbo : List ℚ
  histPi : List ℚ
  histSigmaBeta : List ℚ
  histSigmaEpsilon : List ℚ
  histHer : List ℚ

/-- The per-E-step constants of vem_prs_sbayes.e_step. -/
structure Ctx where
  tr : TransFn
  n : ℚ
  sigmaBeta : ℚ
  scalePrior : Bool
  logPi : ℚ

/-- Build the E-step constants from the current state. -/
def mkCtx (tr : TransFn) (s : State) : Ctx :=
  ⟨tr, s.n, s.sigmaBeta, s.scalePrior, tr.rlog (s.pi / (1 - s.pi))⟩

/-- The mutable arrays of one sequential E-step pass of the per-variant
variant: mu, gamma, sigma, and the running expected-effect array var_prod. -/
structure Pass where
  mu : ℕ → ℚ
  gamma : ℕ → ℚ
  sigma : ℕ → ℚ
  vp : ℕ → ℚ

/-- One iteration of the sequential loop of vem_prs_sbayes.e_step at variant
j, with the prior variance and the residual variance taken per-variant from
sig_e_snp. -/
def eIter (C : Ctx) (b : Block) (st : Pass) (j : ℕ) : Pass :=
  let pv := if C.scalePrior then b.sigE j * C.sigmaBeta else C.sigmaBeta
  let sj := b.sigE j / (C.n + b.sigE j / pv)
  let muJ := (b.betaHat j - wdot (b.ld j) st.vp (b.lo j) (b.hi j) + b.ld j j * st.vp j)
      / (1 + b.sigE j / (C.n * pv))
  let u := C.logPi + (1/2) * C.tr.rlog (sj / pv) + ((1/2) / sj) * muJ * muJ
  let g := clip (C.tr.sigmoid u) (1/1000000) (1 - 1/1000000)
  ⟨aupd st.mu j muJ, aupd st.gamma j g, aupd st.sigma j sj, aupd st.vp j (g * muJ)⟩

/-- The whole sequential pass over a block of the per-variant variant. -/
def ePass (C : Ctx) (b : Block) : Pass :=
  (List.range b.m).foldl (eIter C b) ⟨b.mu, b.gamma, b.sigma, fun j => b.gamma j * b.mu j⟩

/-- E-step effect on one block of the per-variant variant. -/
def eStepBlock (C : Ctx) (b : Block) : Block :=
  let r := ePass C b
  { b with mu := r.mu, gamma := r.gamma, sigma := r.sigma }

/-- vem_prs_sbayes.e_step: process every block with the shared constants. -/
def eStep (tr : TransFn) (s : State) : State :=
  { s with blocks := s.blocks.map (eStepBlock (mkCtx tr s)) }

/-- Sum of all var_gamma entries over all blocks. -/
def gammaSum (s : State) : ℚ := (s.blocks.map (fun b => fsum b.gamma b.m)).sum

/-- The per-variant self term of the sig_e_snp recomputation in
vem_prs_sbayes.m_step (snp_res in the code). -/
def snpRes (adj : ℚ) (b : Block) (i : ℕ) : ℚ :=
  (1/2) * adj * (b.gamma i * (b.mu i ^ 2 + b.sigma i)) - b.gamma i * b.mu i * b.betaHat i

/-- The pairwise LD cross term of the sig_e_snp recomputation (snp_ld in the
code): the upper-window sum over j > i of LD[i,j] * var_prod[i] *
var_prod[j]. -/
def snpLd (b : Block) (i : ℕ) : ℚ :=
  Finset.sum (Finset.Ico (i+1) (b.hi i))
    (fun j => b.ld i j * (b.gamma i * b.mu i) * (b.gamma j * b.mu j))

/-- The unconditional per-block effect of vem_prs_sbayes.m_step on
sig_e_snp: every entry is overwritten with yy[i] + 2*(snp_res + snp_ld),
clipped to [1e-12, 1e12]. -/
def residBlock (adj : ℚ) (b : Block) : Block :=
  { b with sigE := fun i => if i < b.m then
      npClip (b.yy i + 2 * (snpRes adj b i + snpLd b i)) (1/1000000000000) 1000000000000
    else b.sigE i }

/-- Per-block sum of the self terms accumulated into global_sig_e. -/
def blockRes (adj : ℚ) (b : Block) : ℚ := fsum (snpRes adj b) b.m

/-- Per-block sum of the LD cross terms accumulated into ld_prod. -/
def blockLd (b : Block) : ℚ := fsum (snpLd b) b.m

/-- vem_prs_sbayes.m_step: update pi (np.clip to [1/M, 1]) unless fixed,
sigma_beta (np.clip to [1e-12, inf)) unless fixed, then unconditionally
recompute sig_e_snp (clipped to [1e-12, 1e12]) and ld_prod, and finally
sigma_epsilon (clipped to [1e-12, 1e12]) unless fixed, appending each global
value to its history list. -/
def mStep (s : State) : State :=
  let vgs := gammaSum s
  let pi2 := if s.fixPi = none then npClip (vgs / s.mTot) (1 / s.mTot) 1 else s.pi
  let sb0 := (s.blocks.map (fun b => fdot b.gamma (fun i => b.mu i ^ 2 + b.sigma i) b.m)).sum / vgs
  let sb1 := if s.scalePrior then sb0 / s.sigmaEpsilon else sb0
  let sb2 := if s.fixSigmaBeta = none then npClipLo sb1 (1/1000000000000) else s.sigmaBeta
  let adj := if s.scalePrior then 1 + 1 / (s.n * sb2) else 1
  let globalSigE := (s.blocks.map (blockRes adj)).sum + (s.blocks.map blockLd).sum
  let ldp := 2 * (s.blocks.map blockLd).sum
  let fin0 := 1 + 2 * globalSigE
  let fin1 := if s.scalePrior then fin0 * (s.n / (s.n + vgs)) else fin0
  let se2 := if s.fixSigmaEpsilon = none then npClip fin1 (1/1000000000000) 1000000000000
    else s.sigmaEpsilon
  { s with
    pi := pi2, sigmaBeta := sb2, sigmaEpsilon := se2, ldProd := ldp,
    blocks := s.blocks.map (residBlock adj),
    histPi := s.histPi ++ [pi2],
    histSigmaBeta := s.histSigmaBeta ++ [sb2],
    histSigmaEpsilon := s.histSigmaEpsilon ++ [se2] }

/-- The ELBO value computed by vem_prs_sbayes.objective: as in the
global-residual variant but with the maintained ld_prod substituted for the
per-block dot product against q. -/
def elboVal (tr : TransFn) (s : State) : ℚ :=
  let pv := if s.scalePrior then s.sigmaEpsilon * s.sigmaBeta else s.sigmaBeta
  let l0 := -(1/2) * s.n * (tr.rlog (2 * tr.piC * s.sigmaEpsilon) + 1 / s.sigmaEpsilon)
      - (1/2) * s.mTot * tr.rlog (2 * tr.piC * pv)
      + s.mTot * tr.rlog (1 - s.pi)
  let e0 := (1/2) * s.mTot * tr.rlog (2 * tr.piC * tr.eC * pv)
  let lb := (s.blocks.map (fun b =>
      (-(1/2) * s.n / s.sigmaEpsilon) *
        (-2 * fdot (fun i => b.gamma i * b.mu i) b.betaHat b.m
         + s.ldProd
         + fsum (fun i => b.gamma i * (b.mu i ^ 2 + b.sigma i)) b.m)
      + (-(1/2) / pv) *
        (fsum (fun i => b.gamma i * (b.mu i ^ 2 + b.sigma i)) b.m
         + pv * fsum (fun i => 1 - b.gamma i) b.m)
      + tr.rlog (s.pi / (1 - s.pi)) * fsum b.gamma b.m)).sum
  let eb := (s.blocks.map (fun b =>
      (1/2) * fdot b.gamma (fun i => tr.rlog (b.sigma i / pv)) b.m
      - fdot b.gamma (fun i => tr.rlog (b.gamma i / (1 - b.gamma i))) b.m
      - fsum (fun i => tr.rlog (1 - b.gamma i)) b.m)).sum
  l0 + lb + (e0 + eb)

/-- vem_prs_sbayes.objective as a state transformer. -/
def objectiveStep (tr : TransFn) (s : State) : State :=
  { s with histElbo := s.histElbo ++ [elboVal tr s] }

/-- The heritability value computed by vem_prs_sbayes.get_heritability. -/
def herVal (s : State) : ℚ :=
  let sg := (s.blocks.map (fun b =>
      fsum (fun i => b.gamma i * (b.mu i ^ 2 + b.sigma i)) b.m)).sum + s.ldProd
  sg / (sg + s.sigmaEpsilon)

/-- vem_prs_sbayes.get_heritability as a state transformer. -/
def herStep (s : State) : State := { s with histHer := s.histHer ++ [herVal s] }

/-- vem_prs_sbayes.initialize_variational_params. -/
def initVar (d : Draws) (s : State) : State :=
  { s with blocks := s.blocks.mapIdx (fun bi b =>
      { b with gamma := d.gamma bi, mu := d.mu bi, sigma := fun _ => 1 / s.mTot }) }

/-- vem_prs_sbayes.initialize_theta: fixed parameters are copied verbatim,
free ones take the drawn value, and sig_e_snp is filled with the (possibly
fixed) sigma_epsilon. -/
def initTheta (d : Draws) (s : State) : State :=
  let sb := s.fixSigmaBeta.getD d.sigmaBeta
  let se := s.fixSigmaEpsilon.getD d.sigmaEpsilon
  { s with
    sigmaBeta := sb, sigmaEpsilon := se,
    blocks := s.blocks.map (fun b => { b with sigE := fun _ => se }),
    pi := s.fixPi.getD d.pi }

/-- vem_prs_sbayes.init_history. -/
def initHist (s : State) : State :=
  { s with
    histElbo := [], histPi := [], histSigmaBeta := [],
    histSigmaEpsilon := [], histHer := [] }

/-- vem_prs_sbayes.initialize. -/
def initModel (d : Draws) (s : State) : State := initHist (initTheta d (initVar d s))

/-- One fit iteration of vem_prs_sbayes.fit. -/
def fitStep (tr : TransFn) (s : State) : State :=
  herStep (objectiveStep tr (mStep (eStep tr s)))

end VSB

/-- Terminal states of the fit driver loop: converged (ELBO change within
tol), stalled (too many ELBO drops), or the iteration cap was exhausted. -/
inductive FitStatus where
  | converged : FitStatus
  | stalled : FitStatus
  | maxIterReached : FitStatus
deriving DecidableEq

/-- Result of the fit loop: final state, the iteration at which the loop
stopped, the final ELBO drop counter, and the terminal status. -/
structure FitRes (S : Type) where
  state : S
  stopIter : ℕ
  dropCount : ℕ
  status : FitStatus

/-- The fit driver loop shared verbatim by both variants (fit in both
files), parameterized by the per-iteration state transformer step (e_step,
m_step, objective, get_heritability composed) and by the accessor for the
ELBO history list that objective appends to.  fuel is the number of loop
iterations left, i the number already performed, count the ELBO drop counter.
From iteration 2 on, the last two ELBO history entries are compared: a drop
increments the counter; if the absolute change is within tol the loop stops
as converged; otherwise, if the counter exceeds maxDrops, it stops as
stalled. -/
def fitAux {S : Type} (step : S → S) (ehist : S → List ℚ) (tol : ℚ) (maxDrops : ℕ) :
    ℕ → ℕ → ℕ → S → FitRes S
  | 0, i, count, s => ⟨s, i, count, FitStatus.maxIterReached⟩
  | fuel+1, i, count, s =>
    let s2 := step s
    let h := ehist s2
    if 2 ≤ i + 1 then
      let eCur := h.getD (i + 1 - 1) 0
      let ePrev := h.getD (i + 1 - 2) 0
      let count2 := if eCur < ePrev then count + 1 else count
      if |eCur - ePrev| ≤ tol then ⟨s2, i + 1, count2, FitStatus.converged⟩
      else if maxDrops < count2 then ⟨s2, i + 1, count2, FitStatus.stalled⟩
      else fitAux step ehist tol maxDrops fuel (i+1) count2 s2
    else fitAux step ehist tol maxDrops fuel (i+1) count s2

/-- Run the fit loop from the start: up to maxIter iterations, iteration
counter and drop counter at zero. -/
def fitRun {S : Type} (step : S → S) (ehist : S → List ℚ) (tol : ℚ) (maxDrops maxIter : ℕ)
    (s0 : S) : FitRes S :=
  fitAux step ehist tol maxDrops maxIter 0 0 s0

/-- vem_prs_opt.fit: initialize unless continued, then run the driver loop
with the composed iteration step, reading the ELBO history of the state. -/
def VOpt.fit (tr : TransFn) (d : Draws) (maxIter : ℕ) (tol : ℚ) (maxDrops : ℕ)
    (continued : Bool) (s : VOpt.State) : FitRes VOpt.State :=
  fitRun (VOpt.fitStep tr) VOpt.State.histElbo tol maxDrops maxIter
    (if continued then s else VOpt.initModel d s)

/-- vem_prs_sbayes.fit. -/
def VSB.fit (tr : TransFn) (d : Draws) (maxIter : ℕ) (tol : ℚ) (maxDrops : ℕ)
    (continued : Bool) (s : VSB.State) : FitRes VSB.State :=
  fitRun (VSB.fitStep tr) VSB.State.histElbo tol maxDrops maxIter
    (if continued then s else VSB.initModel d s)

/-- The ELBO recorded at iteration i of a fit run (i counted from 1): the
last history entry after i iterations of the step. -/
def elboAt {S : Type} (step : S → S) (ehist : S → List ℚ) (s0 : S) (i : ℕ) : ℚ :=
  (ehist (step^[i] s0)).getD (i - 1) 0

/-- Number of recorded ELBO decreases among the iterations 2..i of the
sequence f of per-iteration ELBO values. -/
def dropsF (f : ℕ → ℚ) (i : ℕ) : ℕ :=
  ((Finset.Icc 2 i).filter (fun j => f j < f (j - 1))).card

/-- Number of recorded ELBO decreases among the iterations 2..i of a fit
run. -/
def dropsUpTo {S : Type} (step : S → S) (ehist : S → List ℚ) (s0 : S) (i : ℕ) : ℕ :=
  dropsF (elboAt step ehist s0) i

/-- The control skeleton of the fit loop over the bare sequence of
per-iteration ELBO values; fitAux refines it. -/
def pureLoop (f : ℕ → ℚ) (tol : ℚ) (maxDrops : ℕ) : ℕ → ℕ → ℕ → ℕ × ℕ × FitStatus
  | 0, i, count => (i, count, FitStatus.maxIterReached)
  | fuel+1, i, count =>
    if 2 ≤ i + 1 then
      let count2 := if f (i+1) < f i then count + 1 else count
      if |f (i+1) - f i| ≤ tol then (i+1, count2, FitStatus.converged)
      else if maxDrops < count2 then (i+1, count2, FitStatus.stalled)
      else pureLoop f tol maxDrops fuel (i+1) count2
    else pureLoop f tol maxDrops fuel (i+1) count

/-- Projection of a fit result onto its control part: stop iteration, final
drop counter, terminal status. -/
def FitRes.sig {S : Type} (r : FitRes S) : ℕ × ℕ × FitStatus :=
  (r.stopIter, r.dropCount, r.status)

/-- Raw per-block inputs as materialized arrays, before they are consumed by
the model: the declared block size and the per-block lists. -/
structure RawBlock where
  size : ℕ
  betaHat : List ℚ
  ldRows : List (List ℚ)
  ldBounds : List (ℕ × ℕ)

/-- Shape consistency of one raw block: every per-block array has the
declared length. -/
def RawBlock.consistent (r : RawBlock) : Bool :=
  (r.betaHat.length == r.size) && (r.ldRows.length == r.size)
    && (r.ldBounds.length == r.size)

/-- View a raw block as a model block (windowed ld rows addressed by absolute
index); out-of-range accesses default to zero, mirroring that the code never
checks lengths. -/
def RawBlock.toBlock (r : RawBlock) : VOpt.Block :=
  { m := r.size
    betaHat := fun i => r.betaHat.getD i 0
    ld := fun i j => (r.ldRows.getD i []).getD (j - (r.ldBounds.getD i (0, 0)).1) 0
    lo := fun i => (r.ldBounds.getD i (0, 0)).1
    hi := fun i => (r.ldBounds.getD i (0, 0)).2
    gamma := fun _ => 0
    mu := fun _ => 0
    sigma := fun _ => 0
    q := fun _ => 0 }

/-- Constructor plus initialize of the global-residual variant over raw
per-block inputs, mirroring __init__ and initialize of vem_prs_opt: the
inputs are stored and the variational state is built from the declared block
sizes; no shape validation of any kind is performed, so no input is ever
rejected (a rejection would be the none value, which never occurs). -/
def rawInitModel (n mTot : ℚ) (scale : Bool) (fp fsb fse : Option ℚ) (d : Draws)
    (raw : List RawBlock) : Option VOpt.State :=
  some (VOpt.initModel d
    { n := n, mTot := mTot, scalePrior := scale, fixPi := fp, fixSigmaBeta := fsb,
      fixSigmaEpsilon := fse, pi := 0, sigmaBeta := 0, sigmaEpsilon := 0,
      blocks := raw.map RawBlock.toBlock,
      histElbo := [], histPi := [], histSigmaBeta := [], histSigmaEpsilon := [],
      histHer := [] })

namespace VOpt

/-- State of the sequential E-step pass after processing variants 0..t-1:
the length-t prefix of the fold performed by ePass. -/
def passP (C : Ctx) (b : Block) (t : ℕ) : Pass :=
  (List.range t).foldl (eIter C b) ⟨b.mu, b.gamma, fun j => b.gamma j * b.mu j, fun _ => 0⟩

/-- Stated from the spec's words for the refinement claim about q: the direct
windowed matrix-vector product at variant i over a block's current arrays,
summing over the whole LD window of i, diagonal term included. -/
def directQ (b : Block) (i : ℕ) : ℚ :=
  Finset.sum (Finset.Ico (b.lo i) (b.hi i)) (fun j => b.ld i j * (b.gamma j * b.mu j))

/-- The windowed product with the diagonal term removed: what q actually
holds at the end of a pass. -/
def offDiagQ (b : Block) (i : ℕ) : ℚ :=
  Finset.sum ((Finset.Ico (b.lo i) (b.hi i)).erase i) (fun j => b.ld i j * (b.gamma j * b.mu j))

end VOpt

namespace VSB

/-- State of the sequential E-step pass of the per-variant variant after
processing variants 0..t-1. -/
def passP (C : Ctx) (b : Block) (t : ℕ) : Pass :=
  (List.range t).foldl (eIter C b) ⟨b.mu, b.gamma, b.sigma, fun j => b.gamma j * b.mu j⟩

end VSB

/-- Concrete instantiation of the abstract transcendental functions used by
the examples below: log constantly zero, sigmoid constantly one half. -/
def trEx : TransFn := ⟨fun _ => 0, fun _ => 1/2, 0, 0⟩

/-- Concrete draw values used by the examples below. -/
def dEx : Draws := ⟨1/100, 1, 1/10, fun _ _ => 1/2, fun _ _ => 0⟩

/-- A two-variant block with diagonal LD (every window contains only its own
variant). -/
def bDiag : VOpt.Block :=
  { m := 2, betaHat := fun i => (i : ℚ) + 1, ld := fun i j => if i = j then 1 else 0,
    lo := id, hi := fun i => i + 1, gamma := fun _ => 1/2, mu := fun _ => 0,
    sigma := fun _ => 1/3, q := fun _ => 0 }

/-- Global-residual state over the diagonal block, sigma_epsilon = 1,
scale_prior off, nothing pinned. -/
def sC1 : VOpt.State :=
  { n := 1000, mTot := 3, scalePrior := false, fixPi := none, fixSigmaBeta := none,
    fixSigmaEpsilon := none, pi := 1/10, sigmaBeta := 1/100, sigmaEpsilon := 1,
    blocks := [bDiag], histElbo := [], histPi := [], histSigmaBeta := [],
    histSigmaEpsilon := [], histHer := [] }

/-- A one-variant block whose window is the full (single-element) range, with
self-correlation 1 and a nonzero marginal effect. -/
def bOne : VOpt.Block :=
  { m := 1, betaHat := fun _ => 2, ld := fun _ _ => 1, lo := fun _ => 0, hi := fun _ => 1,
    gamma := fun _ => 1/2, mu := fun _ => 0, sigma := fun _ => 1, q := fun _ => 0 }

/-- Global-residual state over the one-variant block. -/
def sOne : VOpt.State :=
  { n := 1, mTot := 1, scalePrior := false, fixPi := none, fixSigmaBeta := none,
    fixSigmaEpsilon := none, pi := 1/2, sigmaBeta := 1, sigmaEpsilon := 1,
    blocks := [bOne], histElbo := [], histPi := [], histSigmaBeta := [],
    histSigmaEpsilon := [], histHer := [] }

/-- A one-variant block of the per-variant-residual variant with a huge
posterior mean effect, driving the sigma_beta update above 1e12. -/
def bSB : VSB.Block :=
  { m := 1, betaHat := fun _ => 1, yy := fun _ => 1, ld := fun _ _ => 1,
    lo := fun _ => 0, hi := fun _ => 1, gamma := fun _ => 1, mu := fun _ => 2000000,
    sigma := fun _ => 0, sigE := fun _ => 1 }

/-- Per-variant-residual state over that block, nothing pinned. -/
def tSB : VSB.State :=
  { n := 1, mTot := 1, scalePrior := false, fixPi := none, fixSigmaBeta := none,
    fixSigmaEpsilon := none, pi := 1/2, sigmaBeta := 1, sigmaEpsilon := 1, ldProd := 0,
    blocks := [bSB], histElbo := [], histPi := [], histSigmaBeta := [],
    histSigmaEpsilon := [], histHer := [] }

/-- The same per-variant-residual state with sigma_epsilon pinned. -/
def tPin : VSB.State := { tSB with fixSigmaEpsilon := some 1 }

/-- Global-residual state with all three globals pinned. -/
def sFix : VOpt.State :=
  { sC1 with fixPi := some (1/10), fixSigmaBeta := some (1/100), fixSigmaEpsilon := some 1 }

/-- Per-variant-residual state with all three globals pinned. -/
def tFix : VSB.State :=
  { tSB with fixPi := some (1/10), fixSigmaBeta := some (1/100), fixSigmaEpsilon := some 1 }

/-- Global-residual state with no blocks, for cheap end-to-end evaluation. -/
def sEmpty : VOpt.State := { sC1 with blocks := [] }

/-- An abstract fit model over bare ELBO lists, used to instantiate the
driver-loop theorems concretely: the state is the ELBO history itself and
each iteration appends the next value of the sequence f. -/
def seqStep (f : ℕ → ℚ) : List ℚ → List ℚ := fun l => l ++ [f l.length]

/-- ELBO sequence with a single large drop at iteration 2. -/
def fC6 : ℕ → ℚ := fun k => if k = 0 then 10 else 0

/-- ELBO sequence with a small (within-tolerance) drop at iteration 2. -/
def fC10 : ℕ → ℚ := fun k => if k = 0 then 10 else 19/2

/-- A raw input whose beta_hat array is shorter than the declared block
size. -/
def badRaw : RawBlock := ⟨3, [1, 2], [[1], [1], [1]], [(0, 1), (1, 2), (2, 3)]⟩

theorem clip_ge_lo (x lo hi : ℚ) : lo ≤ clip x lo hi := le_max_left _ _

theorem clip_le_hi (x lo hi : ℚ) (h : lo ≤ hi) : clip x lo hi ≤ hi :=
  max_le h (min_le_right _ _)

theorem npClip_ge_lo (x lo hi : ℚ) (h : lo ≤ hi) : lo ≤ npClip x lo hi :=
  le_min h (le_max_left _ _)

theorem npClip_le_hi (x lo hi : ℚ) : npClip x lo hi ≤ hi := min_le_left _ _

theorem npClipLo_ge_lo (x lo : ℚ) : lo ≤ npClipLo x lo := le_max_left _ _

namespace VOpt

theorem passP_succ (C : Ctx) (b : Block) (t : ℕ) :
    passP C b (t+1) = eIter C b (passP C b t) t := by
  simp [passP, List.range_succ]

theorem ePass_eq_passP (C : Ctx) (b : Block) : ePass C b = passP C b b.m := rfl

theorem eIter_mu_ne (C : Ctx) (b : Block) (st : Pass) {i j : ℕ} (h : j ≠ i) :
    (eIter C b st i).mu j = st.mu j := by
  simp [eIter, aupd, h]

theorem eIter_gamma_ne (C : Ctx) (b : Block) (st : Pass) {i j : ℕ} (h : j ≠ i) :
    (eIter C b st i).gamma j = st.gamma j := by
  simp [eIter, aupd, h]

theorem eIter_vp_ne (C : Ctx) (b : Block) (st : Pass) {i j : ℕ} (h : j ≠ i) :
    (eIter C b st i).vp j = st.vp j := by
  simp [eIter, aupd, h]

theorem passP_stable (C : Ctx) (b : Block) {t u : ℕ} (hu : t ≤ u) :
    ∀ j, j < t →
      (passP C b u).mu j = (passP C b t).mu j ∧
      (passP C b u).gamma j = (passP C b t).gamma j ∧
      (passP C b u).vp j = (passP C b t).vp j := by
  induction u, hu using Nat.le_induction with
  | base => exact fun j _ => ⟨rfl, rfl, rfl⟩
  | succ u2 h ih =>
    intro j hj
    have hj2 : j ≠ u2 := by omega
    rw [passP_succ, eIter_mu_ne C b _ hj2, eIter_gamma_ne C b _ hj2, eIter_vp_ne C b _ hj2]
    exact ih j hj

theorem passP_vp_eq (C : Ctx) (b : Block) :
    ∀ t, ∀ j, j < t →
      (passP C b t).vp j = (passP C b t).gamma j * (passP C b t).mu j := by
  intro t
  induction t with
  | zero => omega
  | succ t ih =>
    intro j hj
    rw [passP_succ]
    by_cases hj2 : j = t
    · subst hj2
      simp [eIter, aupd]
    · have hj3 : j < t := by omega
      rw [eIter_vp_ne C b _ hj2, eIter_gamma_ne C b _ hj2, eIter_mu_ne C b _ hj2]
      exact ih j hj3

theorem passP_final_mu (C : Ctx) (b : Block) {i : ℕ} (hi2 : i < b.m) :
    (passP C b b.m).mu i = (eIter C b (passP C b i) i).mu i := by
  have h := (passP_stable C b (t := i+1) (Nat.succ_le_of_lt hi2) i (Nat.lt_succ_self i)).1
  rw [h, passP_succ]

theorem passP_final_gamma (C : Ctx) (b : Block) {i : ℕ} (hi2 : i < b.m) :
    (passP C b b.m).gamma i = (eIter C b (passP C b i) i).gamma i := by
  have h := (passP_stable C b (t := i+1) (Nat.succ_le_of_lt hi2) i (Nat.lt_succ_self i)).2.1
  rw [h, passP_succ]

theorem eIter_mu_self (C : Ctx) (b : Block) (st : Pass) (i : ℕ) :
    (eIter C b st i).mu i =
      (b.betaHat i - wdot (b.ld i) st.vp (b.lo i) (b.hi i) + b.ld i i * st.vp i) / C.denom := by
  simp [eIter, aupd]

end VOpt

/-- C1: with a single block under diagonal LD (each window holds only its own
variant), scale_prior off and sigma_epsilon = 1, one E-step of the
global-residual variant sets var_mu_beta[i] to beta_hat[i] divided by
1 + 1/(N * sigma_beta): the LD correction cancels exactly, so the update at
variant i depends on no other variant's state. -/
theorem claim_C1 (tr : TransFn) (s : VOpt.State) (b : VOpt.Block)
    (hb : s.blocks = [b]) (hscale : s.scalePrior = false) (heps : s.sigmaEpsilon = 1)
    (hdiag : ∀ i, i < b.m → b.lo i = i ∧ b.hi i = i + 1)
    (i : ℕ) (hi2 : i < b.m) :
    ((VOpt.eStep tr s).blocks.getD 0 default).mu i
      = b.betaHat i / (1 + 1 / (s.n * s.sigmaBeta)) := by
  have hblocks : (VOpt.eStep tr s).blocks = [VOpt.eStepBlock (VOpt.mkCtx tr s) b] := by
    simp [VOpt.eStep, hb]
  rw [hblocks]
  have hmu : (VOpt.eStepBlock (VOpt.mkCtx tr s) b).mu = (VOpt.passP (VOpt.mkCtx tr s) b b.m).mu := rfl
  simp only [List.getD_cons_zero]
  rw [hmu, VOpt.passP_final_mu _ _ hi2, VOpt.eIter_mu_self]
  obtain ⟨hlo, hhi⟩ := hdiag i hi2
  rw [hlo, hhi]
  rw [wdot, Nat.Ico_succ_singleton, Finset.sum_singleton]
  have hden : (VOpt.mkCtx tr s).denom = 1 + 1 / (s.n * s.sigmaBeta) := by
    simp [VOpt.mkCtx, hscale, heps]
  rw [hden]
  ring

namespace VOpt

theorem eIter_q_other (C : Ctx) (b : Block) (st : Pass) {i j : ℕ}
    (h1 : j ≠ i) (h2 : ¬(b.lo i ≤ j ∧ j < i)) :
    (eIter C b st i).q j = st.q j := by
  simp [eIter, ite_apply, h1, h2]

theorem eIter_q_inc (C : Ctx) (b : Block) (st : Pass) {i j : ℕ}
    (h1 : b.lo i ≤ j) (h2 : j < i) :
    (eIter C b st i).q j = st.q j + b.ld i j * (eIter C b st i).vp i := by
  have hlt : b.lo i < i := by omega
  have hne : j ≠ i := by omega
  simp [eIter, ite_apply, aupd, hlt, hne, h1, h2]

theorem eIter_q_self_lt (C : Ctx) (b : Block) (st : Pass) {i : ℕ} (hlt : b.lo i < i) :
    (eIter C b st i).q i = wdot (b.ld i) ((eIter C b st i).vp) (b.lo i) i := by
  simp [eIter, ite_apply, hlt]

theorem eIter_q_self_eq (C : Ctx) (b : Block) (st : Pass) {i : ℕ} (hlt : ¬ b.lo i < i) :
    (eIter C b st i).q i = st.q i := by
  simp [eIter, hlt]

theorem passP_q_inv (C : Ctx) (b : Block)
    (hw : ∀ i, i < b.m → b.lo i ≤ i ∧ i < b.hi i ∧ b.hi i ≤ b.m) :
    ∀ t, t ≤ b.m → ∀ i,
      (passP C b t).q i =
        (if i < t then wdot (b.ld i) ((passP C b t).vp) (b.lo i) i else 0)
        + Finset.sum ((Finset.Ico (i+1) t).filter (fun k => b.lo k ≤ i))
            (fun k => b.ld k i * (passP C b t).vp k) := by
  intro t
  induction t with
  | zero =>
    intro _ i
    simp [passP]
  | succ t ih =>
    intro ht i
    have htm : t < b.m := by omega
    have hwt := hw t htm
    have hts : t ≤ b.m := by omega
    rw [passP_succ]
    set st := passP C b t with hst
    have hvp_ne : ∀ k, k ≠ t → (eIter C b st t).vp k = st.vp k :=
      fun k hk => eIter_vp_ne C b st hk
    have hwdot : ∀ i2, i2 ≤ t →
        wdot (b.ld i2) ((eIter C b st t).vp) (b.lo i2) i2
          = wdot (b.ld i2) st.vp (b.lo i2) i2 := by
      intro i2 hi2
      refine Finset.sum_congr rfl ?_
      intro j hj
      rw [Finset.mem_Ico] at hj
      rw [hvp_ne j (by omega)]
    have hsum : ∀ i2, Finset.sum ((Finset.Ico (i2+1) t).filter (fun k => b.lo k ≤ i2))
        (fun k => b.ld k i2 * (eIter C b st t).vp k)
        = Finset.sum ((Finset.Ico (i2+1) t).filter (fun k => b.lo k ≤ i2))
          (fun k => b.ld k i2 * st.vp k) := by
      intro i2
      refine Finset.sum_congr rfl ?_
      intro k hk
      rw [Finset.mem_filter, Finset.mem_Ico] at hk
      rw [hvp_ne k (by omega)]
    rcases lt_trichotomy i t with hit | hit | hit
    · -- i < t : q[i] may receive the new contribution of variant t
      have hne : i ≠ t := by omega
      by_cases hp : b.lo t ≤ i
      · -- variant i lies inside t's window: q[i] += ld[t,i] * vp[t]
        have hset : (Finset.Ico (i+1) (t+1)).filter (fun k => b.lo k ≤ i)
            = insert t ((Finset.Ico (i+1) t).filter (fun k => b.lo k ≤ i)) := by
          ext k
          simp only [Finset.mem_filter, Finset.mem_Ico, Finset.mem_insert]
          constructor
          · intro hk
            rcases Nat.lt_succ_iff_lt_or_eq.mp hk.1.2 with h2 | h2
            · exact Or.inr ⟨⟨hk.1.1, h2⟩, hk.2⟩
            · exact Or.inl h2
          · intro hk
            rcases hk with h2 | h2
            · subst h2; exact ⟨⟨by omega, by omega⟩, hp⟩
            · exact ⟨⟨h2.1.1, by omega⟩, h2.2⟩
        have hnotmem : t ∉ (Finset.Ico (i+1) t).filter (fun k => b.lo k ≤ i) := by
          simp [Finset.mem_filter, Finset.mem_Ico]
        rw [eIter_q_inc C b st hp hit, ih hts i, if_pos hit, if_pos (by omega : i < t + 1),
          hwdot i (by omega), hset, Finset.sum_insert hnotmem, hsum i]
        ring
      · -- variant i lies outside t's window: q[i] unchanged, filter unchanged
        have hset : (Finset.Ico (i+1) (t+1)).filter (fun k => b.lo k ≤ i)
            = (Finset.Ico (i+1) t).filter (fun k => b.lo k ≤ i) := by
          ext k
          simp only [Finset.mem_filter, Finset.mem_Ico]
          constructor
          · intro hk
            refine ⟨⟨hk.1.1, ?_⟩, hk.2⟩
            rcases Nat.lt_succ_iff_lt_or_eq.mp hk.1.2 with h2 | h2
            · exact h2
            · exfalso; exact hp (h2 ▸ hk.2)
          · intro hk
            exact ⟨⟨hk.1.1, by omega⟩, hk.2⟩
        rw [eIter_q_other C b st hne (by omega), ih hts i, if_pos hit,
          if_pos (by omega : i < t + 1), hwdot i (by omega), hset, hsum i]
    · -- i = t : q[t] is assigned the already-seen half (or stays zero)
      subst hit
      have hempty : (Finset.Ico (i+1) (i+1)).filter (fun k => b.lo k ≤ i) = ∅ := by
        simp
      by_cases hlt : b.lo i < i
      · rw [eIter_q_self_lt C b st hlt, hempty, if_pos (by omega : i < i + 1)]
        simp
      · have hlo : b.lo i = i := by omega
        have hzero : st.q i = 0 := by
          rw [ih hts i, if_neg (by omega : ¬ i < i),
            Finset.Ico_eq_empty (by omega : ¬ i + 1 < i)]
          simp
        rw [eIter_q_self_eq C b st hlt, hzero, hempty, if_pos (by omega : i < i + 1), hlo]
        simp [wdot]
    · -- i > t : q[i] still zero
      have hne : i ≠ t := by omega
      have hzero : st.q i = 0 := by
        rw [ih hts i, if_neg (by omega : ¬ i < t),
          Finset.Ico_eq_empty (by omega : ¬ i + 1 < t)]
        simp
      have hempty2 : (Finset.Ico (i+1) (t+1)).filter (fun k => b.lo k ≤ i) = ∅ := by
        rw [Finset.Ico_eq_empty (by omega : ¬ i + 1 < t + 1)]
        simp
      rw [eIter_q_other C b st hne (by omega), hzero, hempty2,
        if_neg (by omega : ¬ i < t + 1)]
      simp

end VOpt

/-- C2 (amended): at the end of an E-step pass of the global-residual variant
over a block with valid, symmetric LD windows and a symmetric LD matrix, the
incrementally maintained q satisfies, for every variant i, q[i] = sum of
LD[i,j] * expected_effect[j] over the variants j of i's window OTHER THAN i
itself, with expected_effect = var_gamma * var_mu_beta at its end-of-pass
values.  (The claim's full windowed matrix-vector product also includes the
diagonal term j = i, which the code deliberately leaves out; see the
counterexample.) -/
theorem claim_C2_amended (C : VOpt.Ctx) (b : VOpt.Block)
    (hw : ∀ i, i < b.m → b.lo i ≤ i ∧ i < b.hi i ∧ b.hi i ≤ b.m)
    (hsym : ∀ i k, i < b.m → k < b.m → i < k → (b.lo k ≤ i ↔ k < b.hi i))
    (hld : ∀ i k, i < b.m → k < b.m → b.ld i k = b.ld k i)
    (i : ℕ) (hi2 : i < b.m) :
    (VOpt.eStepBlock C b).q i = VOpt.offDiagQ (VOpt.eStepBlock C b) i := by
  have hwin := hw i hi2
  have hvp : ∀ j, j < b.m → (VOpt.passP C b b.m).vp j
      = (VOpt.passP C b b.m).gamma j * (VOpt.passP C b b.m).mu j :=
    fun j hj => VOpt.passP_vp_eq C b b.m j hj
  show (VOpt.passP C b b.m).q i
      = Finset.sum ((Finset.Ico (b.lo i) (b.hi i)).erase i)
          (fun j => b.ld i j * ((VOpt.passP C b b.m).gamma j * (VOpt.passP C b b.m).mu j))
  rw [VOpt.passP_q_inv C b hw b.m le_rfl i, if_pos hi2]
  have hset : (Finset.Ico (i+1) b.m).filter (fun k => b.lo k ≤ i)
      = Finset.Ico (i+1) (b.hi i) := by
    ext k
    simp only [Finset.mem_filter, Finset.mem_Ico]
    constructor
    · intro hk
      exact ⟨hk.1.1, (hsym i k hi2 hk.1.2 (by omega)).mp hk.2⟩
    · intro hk
      have hkm : k < b.m := lt_of_lt_of_le hk.2 hwin.2.2
      exact ⟨⟨hk.1, hkm⟩, (hsym i k hi2 hkm (by omega)).mpr hk.2⟩
  rw [hset]
  have hee : (Finset.Ico (b.lo i) (b.hi i)).erase i
      = Finset.Ico (b.lo i) i ∪ Finset.Ico (i+1) (b.hi i) := by
    ext k
    simp only [Finset.mem_erase, Finset.mem_Ico, Finset.mem_union]
    omega
  have hdisj : Disjoint (Finset.Ico (b.lo i) i) (Finset.Ico (i+1) (b.hi i)) := by
    apply Finset.disjoint_left.mpr
    intro k hk1 hk2
    rw [Finset.mem_Ico] at hk1
    rw [Finset.mem_Ico] at hk2
    omega
  rw [hee, Finset.sum_union hdisj]
  have h1 : wdot (b.ld i) ((VOpt.passP C b b.m).vp) (b.lo i) i
      = Finset.sum (Finset.Ico (b.lo i) i)
          (fun j => b.ld i j * ((VOpt.passP C b b.m).gamma j * (VOpt.passP C b b.m).mu j)) := by
    refine Finset.sum_congr rfl ?_
    intro j hj
    rw [Finset.mem_Ico] at hj
    rw [hvp j (by omega)]
  have h2 : Finset.sum (Finset.Ico (i+1) (b.hi i))
        (fun k => b.ld k i * (VOpt.passP C b b.m).vp k)
      = Finset.sum (Finset.Ico (i+1) (b.hi i))
          (fun j => b.ld i j * ((VOpt.passP C b b.m).gamma j * (VOpt.passP C b b.m).mu j)) := by
    refine Finset.sum_congr rfl ?_
    intro k hk
    rw [Finset.mem_Ico] at hk
    have hkm : k < b.m := lt_of_lt_of_le hk.2 hwin.2.2
    rw [hvp k hkm, hld i k hi2 hkm]
  rw [h1, h2]

/-- C2 (counterexample to the claim as stated): on a one-variant block with
self-correlation 1 the end-of-pass q[0] is 0, while the direct windowed
matrix-vector product over the full window (diagonal included) is the nonzero
expected effect of the variant itself: the incremental computation omits the
diagonal term. -/
theorem claim_C2_counterexample :
    ¬ (((VOpt.eStep trEx sOne).blocks.getD 0 default).q 0
        = VOpt.directQ ((VOpt.eStep trEx sOne).blocks.getD 0 default) 0) := by
  have h0 : (VOpt.eStep trEx sOne).blocks.getD 0 default
      = VOpt.eStepBlock (VOpt.mkCtx trEx sOne) bOne := by
    show ((sOne.blocks.map (VOpt.eStepBlock (VOpt.mkCtx trEx sOne))).getD 0 default) = _
    rfl
  have hq : (VOpt.eStepBlock (VOpt.mkCtx trEx sOne) bOne).q 0 = 0 := by
    show (VOpt.passP (VOpt.mkCtx trEx sOne) bOne 1).q 0 = 0
    rw [show (1 : ℕ) = 0 + 1 from rfl, VOpt.passP_succ,
      VOpt.eIter_q_self_eq _ _ _ (by simp [bOne])]
    rfl
  have hmu : (VOpt.eStepBlock (VOpt.mkCtx trEx sOne) bOne).mu 0 = 1 := by
    show (VOpt.passP (VOpt.mkCtx trEx sOne) bOne 1).mu 0 = 1
    rw [show (1 : ℕ) = 0 + 1 from rfl, VOpt.passP_succ, VOpt.eIter_mu_self]
    norm_num [VOpt.passP, List.range_zero, List.foldl_nil, bOne, sOne, VOpt.mkCtx,
      wdot, Nat.Ico_zero_eq_range, Finset.sum_range_one]
  have hg : (VOpt.eStepBlock (VOpt.mkCtx trEx sOne) bOne).gamma 0 = 1/2 := by
    show (VOpt.passP (VOpt.mkCtx trEx sOne) bOne 1).gamma 0 = 1/2
    rw [show (1 : ℕ) = 0 + 1 from rfl, VOpt.passP_succ]
    have hsig : ∀ u, (VOpt.mkCtx trEx sOne).tr.sigmoid u = 1/2 := fun u => rfl
    simp only [VOpt.eIter, aupd, clip, hsig]
    norm_num [min_def, max_def]
  have hd : VOpt.directQ (VOpt.eStepBlock (VOpt.mkCtx trEx sOne) bOne) 0 = 1/2 := by
    rw [VOpt.directQ]
    have hlo : (VOpt.eStepBlock (VOpt.mkCtx trEx sOne) bOne).lo 0 = 0 := rfl
    have hhi : (VOpt.eStepBlock (VOpt.mkCtx trEx sOne) bOne).hi 0 = 1 := rfl
    have hld : (VOpt.eStepBlock (VOpt.mkCtx trEx sOne) bOne).ld 0 0 = 1 := rfl
    rw [hlo, hhi, Nat.Ico_zero_eq_range, Finset.sum_range_one, hld, hg, hmu]
    norm_num
  rw [h0, hq, hd]
  norm_num

/-- Witness for the amended C2 at a concrete block. -/
theorem claim_C2_amended_witness :
    (VOpt.eStepBlock (VOpt.mkCtx trEx sOne) bOne).q 0
      = VOpt.offDiagQ (VOpt.eStepBlock (VOpt.mkCtx trEx sOne) bOne) 0 :=
  claim_C2_amended (VOpt.mkCtx trEx sOne) bOne
    (by intro i hi2; simp only [bOne] at hi2 ⊢; omega)
    (by intro i k h1 h2 h3; simp only [bOne] at h1 h2; omega)
    (by intro i k h1 h2; rfl)
    0 (by simp [bOne])

/-- Witness for C1 at the concrete diagonal three-variant setting. -/
theorem claim_C1_witness :
    ((VOpt.eStep trEx sC1).blocks.getD 0 default).mu 0
      = bDiag.betaHat 0 / (1 + 1 / (sC1.n * sC1.sigmaBeta)) :=
  claim_C1 trEx sC1 bDiag rfl rfl rfl (fun _ _ => ⟨rfl, rfl⟩) 0 (by decide)

theorem aupd_self (f : ℕ → ℚ) (i : ℕ) (v : ℚ) : aupd f i v i = v := by simp [aupd]

namespace VOpt

theorem eIter_gamma_clip (C : Ctx) (b : Block) (st : Pass) (i : ℕ) :
    ∃ x, (eIter C b st i).gamma = aupd st.gamma i (clip x (1/1000000) (1 - 1/1000000)) :=
  ⟨_, rfl⟩

theorem eIter_gamma_mem (C : Ctx) (b : Block) (st : Pass) (i : ℕ) :
    1/1000000 ≤ (eIter C b st i).gamma i ∧ (eIter C b st i).gamma i ≤ 1 - 1/1000000 := by
  obtain ⟨x, hx⟩ := eIter_gamma_clip C b st i
  rw [hx, aupd_self]
  exact ⟨clip_ge_lo _ _ _, clip_le_hi _ _ _ (by norm_num)⟩

end VOpt

namespace VSB

theorem sbPassP_succ (C : Ctx) (b : Block) (t : ℕ) :
    passP C b (t+1) = eIter C b (passP C b t) t := by
  simp [passP, List.range_succ]

theorem sbEIter_gamma_ne (C : Ctx) (b : Block) (st : Pass) {i j : ℕ} (h : j ≠ i) :
    (eIter C b st i).gamma j = st.gamma j := by
  simp [eIter, aupd, h]

theorem eIter_sigma_ne (C : Ctx) (b : Block) (st : Pass) {i j : ℕ} (h : j ≠ i) :
    (eIter C b st i).sigma j = st.sigma j := by
  simp [eIter, aupd, h]

theorem passP_stable_gs (C : Ctx) (b : Block) {t u : ℕ} (hu : t ≤ u) :
    ∀ j, j < t → (passP C b u).gamma j = (passP C b t).gamma j ∧
      (passP C b u).sigma j = (passP C b t).sigma j := by
  induction u, hu using Nat.le_induction with
  | base => exact fun j _ => ⟨rfl, rfl⟩
  | succ u2 h ih =>
    intro j hj
    have hj2 : j ≠ u2 := by omega
    rw [sbPassP_succ, sbEIter_gamma_ne C b _ hj2, eIter_sigma_ne C b _ hj2]
    exact ih j hj

theorem sbEIter_gamma_clip (C : Ctx) (b : Block) (st : Pass) (j : ℕ) :
    ∃ x, (eIter C b st j).gamma = aupd st.gamma j (clip x (1/1000000) (1 - 1/1000000)) :=
  ⟨_, rfl⟩

theorem sbEIter_gamma_mem (C : Ctx) (b : Block) (st : Pass) (j : ℕ) :
    1/1000000 ≤ (eIter C b st j).gamma j ∧ (eIter C b st j).gamma j ≤ 1 - 1/1000000 := by
  obtain ⟨x, hx⟩ := sbEIter_gamma_clip C b st j
  rw [hx, aupd_self]
  exact ⟨clip_ge_lo _ _ _, clip_le_hi _ _ _ (by norm_num)⟩

theorem eIter_sigma_self (C : Ctx) (b : Block) (st : Pass) (j : ℕ) :
    (eIter C b st j).sigma j
      = b.sigE j / (C.n + b.sigE j /
          (if C.scalePrior then b.sigE j * C.sigmaBeta else C.sigmaBeta)) := by
  simp [eIter, aupd]

end VSB

/-- C4: after one E-step of either variant, every var_gamma entry lies in
[1e-6, 1-1e-6] (the update site clips the sigmoid), and every var_sigma_beta
entry is strictly positive, assuming sigma_epsilon > 0 and sigma_beta > 0
(global-residual variant), respectively every sig_e_snp entry > 0 and
sigma_beta > 0 (per-variant-residual variant), with a nonnegative sample
size. -/
theorem claim_C4 (tr : TransFn) (s : VOpt.State) (t : VSB.State)
    (hn : 0 ≤ s.n) (he : 0 < s.sigmaEpsilon) (hb : 0 < s.sigmaBeta)
    (hn2 : 0 ≤ t.n) (hb2 : 0 < t.sigmaBeta)
    (hse : ∀ b ∈ t.blocks, ∀ i, i < b.m → 0 < b.sigE i) :
    (∀ b2 ∈ (VOpt.eStep tr s).blocks, ∀ i, i < b2.m →
       (1/1000000 ≤ b2.gamma i ∧ b2.gamma i ≤ 1 - 1/1000000) ∧ 0 < b2.sigma i)
    ∧ (∀ b2 ∈ (VSB.eStep tr t).blocks, ∀ i, i < b2.m →
       (1/1000000 ≤ b2.gamma i ∧ b2.gamma i ≤ 1 - 1/1000000) ∧ 0 < b2.sigma i) := by
  constructor
  · intro b2 hmem i hi2
    simp only [VOpt.eStep, List.mem_map] at hmem
    obtain ⟨b, hbmem, rfl⟩ := hmem
    have hi3 : i < b.m := hi2
    refine ⟨?_, ?_⟩
    · have hgm : (VOpt.eStepBlock (VOpt.mkCtx tr s) b).gamma i
          = (VOpt.passP (VOpt.mkCtx tr s) b b.m).gamma i := rfl
      rw [hgm, VOpt.passP_final_gamma (VOpt.mkCtx tr s) b hi3]
      exact VOpt.eIter_gamma_mem (VOpt.mkCtx tr s) b (VOpt.passP (VOpt.mkCtx tr s) b i) i
    · show 0 < s.sigmaEpsilon /
        (s.n + s.sigmaEpsilon / (if s.scalePrior then s.sigmaEpsilon * s.sigmaBeta else s.sigmaBeta))
      have hpv : 0 < (if s.scalePrior then s.sigmaEpsilon * s.sigmaBeta else s.sigmaBeta) := by
        split
        · exact mul_pos he hb
        · exact hb
      have hq2 : 0 < s.sigmaEpsilon
          / (if s.scalePrior then s.sigmaEpsilon * s.sigmaBeta else s.sigmaBeta) :=
        div_pos he hpv
      exact div_pos he (by linarith)
  · intro b2 hmem i hi2
    simp only [VSB.eStep, List.mem_map] at hmem
    obtain ⟨b, hbmem, rfl⟩ := hmem
    have hi3 : i < b.m := hi2
    have hstab := VSB.passP_stable_gs (VSB.mkCtx tr t) b (Nat.succ_le_of_lt hi3) i
      (Nat.lt_succ_self i)
    refine ⟨?_, ?_⟩
    · have hgm : (VSB.eStepBlock (VSB.mkCtx tr t) b).gamma i
          = (VSB.passP (VSB.mkCtx tr t) b b.m).gamma i := rfl
      rw [hgm, hstab.1, VSB.sbPassP_succ]
      exact VSB.sbEIter_gamma_mem (VSB.mkCtx tr t) b (VSB.passP (VSB.mkCtx tr t) b i) i
    · have hsg : (VSB.eStepBlock (VSB.mkCtx tr t) b).sigma i
          = (VSB.passP (VSB.mkCtx tr t) b b.m).sigma i := rfl
      rw [hsg, hstab.2, VSB.sbPassP_succ, VSB.eIter_sigma_self]
      have hsei := hse b hbmem i hi3
      have hbeta : (VSB.mkCtx tr t).sigmaBeta = t.sigmaBeta := rfl
      have hpv : 0 < (if (VSB.mkCtx tr t).scalePrior
          then b.sigE i * (VSB.mkCtx tr t).sigmaBeta else (VSB.mkCtx tr t).sigmaBeta) := by
        rw [hbeta]
        split
        · exact mul_pos hsei hb2
        · exact hb2
      have hq2 : 0 < b.sigE i / (if (VSB.mkCtx tr t).scalePrior
          then b.sigE i * (VSB.mkCtx tr t).sigmaBeta else (VSB.mkCtx tr t).sigmaBeta) :=
        div_pos hsei hpv
      have hnn : (VSB.mkCtx tr t).n = t.n := rfl
      exact div_pos hsei (by rw [hnn]; linarith)

/-- Witness for C4 at the concrete states. -/
theorem claim_C4_witness :
    (1/1000000 ≤ (VOpt.eStepBlock (VOpt.mkCtx trEx sC1) bDiag).gamma 0
      ∧ (VOpt.eStepBlock (VOpt.mkCtx trEx sC1) bDiag).gamma 0 ≤ 1 - 1/1000000)
    ∧ 0 < (VOpt.eStepBlock (VOpt.mkCtx trEx sC1) bDiag).sigma 0 :=
  (claim_C4 trEx sC1 tSB (by norm_num [sC1]) (by norm_num [sC1]) (by norm_num [sC1])
      (by norm_num [tSB]) (by norm_num [tSB])
      (by
        intro b hmem i hi2
        rw [show tSB.blocks = [bSB] from rfl, List.mem_singleton] at hmem
        subst hmem
        norm_num [bSB])).1
    (VOpt.eStepBlock (VOpt.mkCtx trEx sC1) bDiag)
    (by
      rw [show (VOpt.eStep trEx sC1).blocks
        = [VOpt.eStepBlock (VOpt.mkCtx trEx sC1) bDiag] from rfl]
      exact List.mem_singleton.mpr rfl)
    0 (by decide)

/-- C3 (amended): after one M-step, every non-pinned global parameter lies in
its stated range, except that in the per-variant-residual variant sigma_beta
is only clipped from below (np.clip with an infinite upper bound), so only
1e-12 <= sigma_beta is guaranteed there; pi lies in [1/M, 1] (with M >= 1),
sigma_beta of the global-residual variant and sigma_epsilon of both variants
lie in [1e-12, 1e12], and every sig_e_snp entry is clipped into
[1e-12, 1e12] as well. -/
theorem claim_C3_amended (s : VOpt.State) (t : VSB.State)
    (hm : 1 ≤ s.mTot) (hm2 : 1 ≤ t.mTot) :
    ((s.fixPi = none → 1 / s.mTot ≤ (VOpt.mStep s).pi ∧ (VOpt.mStep s).pi ≤ 1)
      ∧ (s.fixSigmaBeta = none →
          1/1000000000000 ≤ (VOpt.mStep s).sigmaBeta
            ∧ (VOpt.mStep s).sigmaBeta ≤ 1000000000000)
      ∧ (s.fixSigmaEpsilon = none →
          1/1000000000000 ≤ (VOpt.mStep s).sigmaEpsilon
            ∧ (VOpt.mStep s).sigmaEpsilon ≤ 1000000000000))
    ∧ ((t.fixPi = none → 1 / t.mTot ≤ (VSB.mStep t).pi ∧ (VSB.mStep t).pi ≤ 1)
      ∧ (t.fixSigmaBeta = none → 1/1000000000000 ≤ (VSB.mStep t).sigmaBeta)
      ∧ (t.fixSigmaEpsilon = none →
          1/1000000000000 ≤ (VSB.mStep t).sigmaEpsilon
            ∧ (VSB.mStep t).sigmaEpsilon ≤ 1000000000000)
      ∧ (∀ b2 ∈ (VSB.mStep t).blocks, ∀ i, i < b2.m →
          1/1000000000000 ≤ b2.sigE i ∧ b2.sigE i ≤ 1000000000000)) := by
  have hm0 : 0 < s.mTot := by linarith
  have hm20 : 0 < t.mTot := by linarith
  refine ⟨⟨?_, ?_, ?_⟩, ?_, ?_, ?_, ?_⟩
  · intro h
    obtain ⟨x, hx⟩ : ∃ x, (VOpt.mStep s).pi = if s.fixPi = none then clip x (1 / s.mTot) 1
        else s.pi := ⟨_, rfl⟩
    rw [hx, if_pos h]
    exact ⟨clip_ge_lo _ _ _, clip_le_hi _ _ _ ((div_le_one hm0).mpr hm)⟩
  · intro h
    obtain ⟨x, hx⟩ : ∃ x, (VOpt.mStep s).sigmaBeta
        = if s.fixSigmaBeta = none then clip x (1/1000000000000) 1000000000000
          else s.sigmaBeta := ⟨_, rfl⟩
    rw [hx, if_pos h]
    exact ⟨clip_ge_lo _ _ _, clip_le_hi _ _ _ (by norm_num)⟩
  · intro h
    obtain ⟨x, hx⟩ : ∃ x, (VOpt.mStep s).sigmaEpsilon
        = if s.fixSigmaEpsilon = none then clip x (1/1000000000000) 1000000000000
          else s.sigmaEpsilon := ⟨_, rfl⟩
    rw [hx, if_pos h]
    exact ⟨clip_ge_lo _ _ _, clip_le_hi _ _ _ (by norm_num)⟩
  · intro h
    obtain ⟨x, hx⟩ : ∃ x, (VSB.mStep t).pi = if t.fixPi = none then npClip x (1 / t.mTot) 1
        else t.pi := ⟨_, rfl⟩
    rw [hx, if_pos h]
    exact ⟨npClip_ge_lo _ _ _ ((div_le_one hm20).mpr hm2), npClip_le_hi _ _ _⟩
  · intro h
    obtain ⟨x, hx⟩ : ∃ x, (VSB.mStep t).sigmaBeta
        = if t.fixSigmaBeta = none then npClipLo x (1/1000000000000)
          else t.sigmaBeta := ⟨_, rfl⟩
    rw [hx, if_pos h]
    exact npClipLo_ge_lo _ _
  · intro h
    obtain ⟨x, hx⟩ : ∃ x, (VSB.mStep t).sigmaEpsilon
        = if t.fixSigmaEpsilon = none then npClip x (1/1000000000000) 1000000000000
          else t.sigmaEpsilon := ⟨_, rfl⟩
    rw [hx, if_pos h]
    exact ⟨npClip_ge_lo _ _ _ (by norm_num), npClip_le_hi _ _ _⟩
  · intro b2 hmem i hi2
    obtain ⟨adj, hadj⟩ : ∃ adj, (VSB.mStep t).blocks = t.blocks.map (VSB.residBlock adj) :=
      ⟨_, rfl⟩
    rw [hadj] at hmem
    rw [List.mem_map] at hmem
    obtain ⟨b, hbmem, rfl⟩ := hmem
    have hi3 : i < b.m := hi2
    have hsig : (VSB.residBlock adj b).sigE i
        = npClip (b.yy i + 2 * (VSB.snpRes adj b i + VSB.snpLd b i))
            (1/1000000000000) 1000000000000 := by
      show (if i < b.m then _ else b.sigE i) = _
      rw [if_pos hi3]
    rw [hsig]
    exact ⟨npClip_ge_lo _ _ _ (by norm_num), npClip_le_hi _ _ _⟩

/-- C3 (counterexample to the claim as stated): in the per-variant-residual
variant the sigma_beta update is clipped with np.clip(x, 1e-12, np.inf), so
with a large posterior mean (mu = 2e6 at a fully included variant) the
updated, non-pinned sigma_beta is 4e12, far above the claimed upper bound
1e12. -/
theorem claim_C3_counterexample :
    tSB.fixSigmaBeta = none ∧ 1000000000000 < (VSB.mStep tSB).sigmaBeta := by
  refine ⟨rfl, ?_⟩
  have h : (VSB.mStep tSB).sigmaBeta
      = npClipLo ((tSB.blocks.map
          (fun b => fdot b.gamma (fun i => b.mu i ^ 2 + b.sigma i) b.m)).sum
            / VSB.gammaSum tSB) (1/1000000000000) := rfl
  rw [h, show tSB.blocks = [bSB] from rfl]
  norm_num [VSB.gammaSum, fdot, fsum, tSB, bSB, npClipLo, Finset.sum_range_one, max_def]

/-- Witness for the amended C3 at concrete non-pinned states. -/
theorem claim_C3_amended_witness :
    1 / sC1.mTot ≤ (VOpt.mStep sC1).pi ∧ (VOpt.mStep sC1).pi ≤ 1 :=
  (claim_C3_amended sC1 tSB (by norm_num [sC1]) (by norm_num [tSB])).1.1 rfl

/-- C9: the M-step of the per-variant-residual variant recomputes sig_e_snp
and ld_prod unconditionally: when sigma_epsilon is pinned, the scalar
sigma_epsilon is left untouched, but the blocks (through their overwritten
sig_e_snp arrays) and ld_prod come out exactly as they would with
sigma_epsilon not pinned, and every sig_e_snp entry is overwritten with the
clipped recomputation yy[i] + 2*(snp_res + snp_ld). -/
theorem claim_C9 (t : VSB.State) (v : ℚ) (hfix : t.fixSigmaEpsilon = some v) :
    (VSB.mStep t).sigmaEpsilon = t.sigmaEpsilon
    ∧ (VSB.mStep t).blocks = (VSB.mStep { t with fixSigmaEpsilon := none }).blocks
    ∧ (VSB.mStep t).ldProd = (VSB.mStep { t with fixSigmaEpsilon := none }).ldProd
    ∧ (∀ (bi : ℕ) (b : VSB.Block), t.blocks[bi]? = some b →
        ∀ b2, (VSB.mStep t).blocks[bi]? = some b2 → ∀ i, i < b.m →
          b2.sigE i = npClip (b.yy i + 2 * (VSB.snpRes
              (if t.scalePrior then 1 + 1 / (t.n * (VSB.mStep t).sigmaBeta) else 1) b i
            + VSB.snpLd b i)) (1/1000000000000) 1000000000000) := by
  refine ⟨?_, rfl, rfl, ?_⟩
  · obtain ⟨x, hx⟩ : ∃ x, (VSB.mStep t).sigmaEpsilon
        = if t.fixSigmaEpsilon = none then x else t.sigmaEpsilon := ⟨_, rfl⟩
    rw [hx, hfix]
    simp
  · intro bi b hb b2 hb2 i hi2
    have hmap : (VSB.mStep t).blocks = t.blocks.map (VSB.residBlock
        (if t.scalePrior then 1 + 1 / (t.n * (VSB.mStep t).sigmaBeta) else 1)) := rfl
    rw [hmap, List.getElem?_map, hb] at hb2
    have hb3 : b2 = VSB.residBlock
        (if t.scalePrior then 1 + 1 / (t.n * (VSB.mStep t).sigmaBeta) else 1) b :=
      (Option.some.inj hb2).symm
    subst hb3
    show (if i < b.m then _ else b.sigE i) = _
    rw [if_pos hi2]

/-- Witness for C9 at a concrete pinned state. -/
theorem claim_C9_witness :
    (VSB.mStep tPin).sigmaEpsilon = tPin.sigmaEpsilon :=
  (claim_C9 tPin 1 rfl).1

namespace VOpt

theorem fitStep_fix (tr : TransFn) (s : State) :
    (fitStep tr s).fixPi = s.fixPi ∧ (fitStep tr s).fixSigmaBeta = s.fixSigmaBeta
      ∧ (fitStep tr s).fixSigmaEpsilon = s.fixSigmaEpsilon :=
  ⟨rfl, rfl, rfl⟩

theorem fitStep_pi_pinned (tr : TransFn) (s : State) (h : s.fixPi ≠ none) :
    (fitStep tr s).pi = s.pi := by
  show (mStep (eStep tr s)).pi = s.pi
  obtain ⟨x, hx⟩ : ∃ x, (mStep (eStep tr s)).pi
      = if (eStep tr s).fixPi = none then x else (eStep tr s).pi := ⟨_, rfl⟩
  rw [hx, if_neg (show ¬((eStep tr s).fixPi = none) from h)]
  rfl

theorem fitStep_sb_pinned (tr : TransFn) (s : State) (h : s.fixSigmaBeta ≠ none) :
    (fitStep tr s).sigmaBeta = s.sigmaBeta := by
  show (mStep (eStep tr s)).sigmaBeta = s.sigmaBeta
  obtain ⟨x, hx⟩ : ∃ x, (mStep (eStep tr s)).sigmaBeta
      = if (eStep tr s).fixSigmaBeta = none then x else (eStep tr s).sigmaBeta := ⟨_, rfl⟩
  rw [hx, if_neg (show ¬((eStep tr s).fixSigmaBeta = none) from h)]
  rfl

theorem fitStep_se_pinned (tr : TransFn) (s : State) (h : s.fixSigmaEpsilon ≠ none) :
    (fitStep tr s).sigmaEpsilon = s.sigmaEpsilon := by
  show (mStep (eStep tr s)).sigmaEpsilon = s.sigmaEpsilon
  obtain ⟨x, hx⟩ : ∃ x, (mStep (eStep tr s)).sigmaEpsilon
      = if (eStep tr s).fixSigmaEpsilon = none then x else (eStep tr s).sigmaEpsilon := ⟨_, rfl⟩
  rw [hx, if_neg (show ¬((eStep tr s).fixSigmaEpsilon = none) from h)]
  rfl

theorem iterate_pinned (tr : TransFn) (s : State) (k : ℕ) :
    (((fitStep tr)^[k] s).fixPi = s.fixPi
      ∧ ((fitStep tr)^[k] s).fixSigmaBeta = s.fixSigmaBeta
      ∧ ((fitStep tr)^[k] s).fixSigmaEpsilon = s.fixSigmaEpsilon)
    ∧ (s.fixPi ≠ none → ((fitStep tr)^[k] s).pi = s.pi)
    ∧ (s.fixSigmaBeta ≠ none → ((fitStep tr)^[k] s).sigmaBeta = s.sigmaBeta)
    ∧ (s.fixSigmaEpsilon ≠ none → ((fitStep tr)^[k] s).sigmaEpsilon = s.sigmaEpsilon) := by
  induction k with
  | zero => exact ⟨⟨rfl, rfl, rfl⟩, fun _ => rfl, fun _ => rfl, fun _ => rfl⟩
  | succ k ih =>
    rw [Function.iterate_succ_apply']
    refine ⟨⟨?_, ?_, ?_⟩, ?_, ?_, ?_⟩
    · rw [(fitStep_fix tr _).1, ih.1.1]
    · rw [(fitStep_fix tr _).2.1, ih.1.2.1]
    · rw [(fitStep_fix tr _).2.2, ih.1.2.2]
    · intro h
      rw [fitStep_pi_pinned tr _ (by rw [ih.1.1]; exact h), ih.2.1 h]
    · intro h
      rw [fitStep_sb_pinned tr _ (by rw [ih.1.2.1]; exact h), ih.2.2.1 h]
    · intro h
      rw [fitStep_se_pinned tr _ (by rw [ih.1.2.2]; exact h), ih.2.2.2 h]

end VOpt

namespace VSB

theorem sbFitStep_fix (tr : TransFn) (s : State) :
    (fitStep tr s).fixPi = s.fixPi ∧ (fitStep tr s).fixSigmaBeta = s.fixSigmaBeta
      ∧ (fitStep tr s).fixSigmaEpsilon = s.fixSigmaEpsilon :=
  ⟨rfl, rfl, rfl⟩

theorem sbFitStep_pi_pinned (tr : TransFn) (s : State) (h : s.fixPi ≠ none) :
    (fitStep tr s).pi = s.pi := by
  show (mStep (eStep tr s)).pi = s.pi
  obtain ⟨x, hx⟩ : ∃ x, (mStep (eStep tr s)).pi
      = if (eStep tr s).fixPi = none then x else (eStep tr s).pi := ⟨_, rfl⟩
  rw [hx, if_neg (show ¬((eStep tr s).fixPi = none) from h)]
  rfl

theorem sbFitStep_sb_pinned (tr : TransFn) (s : State) (h : s.fixSigmaBeta ≠ none) :
    (fitStep tr s).sigmaBeta = s.sigmaBeta := by
  show (mStep (eStep tr s)).sigmaBeta = s.sigmaBeta
  obtain ⟨x, hx⟩ : ∃ x, (mStep (eStep tr s)).sigmaBeta
      = if (eStep tr s).fixSigmaBeta = none then x else (eStep tr s).sigmaBeta := ⟨_, rfl⟩
  rw [hx, if_neg (show ¬((eStep tr s).fixSigmaBeta = none) from h)]
  rfl

theorem sbFitStep_se_pinned (tr : TransFn) (s : State) (h : s.fixSigmaEpsilon ≠ none) :
    (fitStep tr s).sigmaEpsilon = s.sigmaEpsilon := by
  show (mStep (eStep tr s)).sigmaEpsilon = s.sigmaEpsilon
  obtain ⟨x, hx⟩ : ∃ x, (mStep (eStep tr s)).sigmaEpsilon
      = if (eStep tr s).fixSigmaEpsilon = none then x else (eStep tr s).sigmaEpsilon := ⟨_, rfl⟩
  rw [hx, if_neg (show ¬((eStep tr s).fixSigmaEpsilon = none) from h)]
  rfl

theorem sbIterate_pinned (tr : TransFn) (s : State) (k : ℕ) :
    (((fitStep tr)^[k] s).fixPi = s.fixPi
      ∧ ((fitStep tr)^[k] s).fixSigmaBeta = s.fixSigmaBeta
      ∧ ((fitStep tr)^[k] s).fixSigmaEpsilon = s.fixSigmaEpsilon)
    ∧ (s.fixPi ≠ none → ((fitStep tr)^[k] s).pi = s.pi)
    ∧ (s.fixSigmaBeta ≠ none → ((fitStep tr)^[k] s).sigmaBeta = s.sigmaBeta)
    ∧ (s.fixSigmaEpsilon ≠ none → ((fitStep tr)^[k] s).sigmaEpsilon = s.sigmaEpsilon) := by
  induction k with
  | zero => exact ⟨⟨rfl, rfl, rfl⟩, fun _ => rfl, fun _ => rfl, fun _ => rfl⟩
  | succ k ih =>
    rw [Function.iterate_succ_apply']
    refine ⟨⟨?_, ?_, ?_⟩, ?_, ?_, ?_⟩
    · rw [(sbFitStep_fix tr _).1, ih.1.1]
    · rw [(sbFitStep_fix tr _).2.1, ih.1.2.1]
    · rw [(sbFitStep_fix tr _).2.2, ih.1.2.2]
    · intro h
      rw [sbFitStep_pi_pinned tr _ (by rw [ih.1.1]; exact h), ih.2.1 h]
    · intro h
      rw [sbFitStep_sb_pinned tr _ (by rw [ih.1.2.1]; exact h), ih.2.2.1 h]
    · intro h
      rw [sbFitStep_se_pinned tr _ (by rw [ih.1.2.2]; exact h), ih.2.2.2 h]

end VSB

/-- C5: a parameter named in the fixed-parameters configuration is copied
verbatim by initialization (not drawn), and no number of fit iterations
(e_step, m_step, objective, heritability) ever changes it, in either
variant. -/
theorem claim_C5 (tr : TransFn) (d : Draws) (s : VOpt.State) (t : VSB.State)
    (k : ℕ) (v : ℚ) :
    (s.fixPi = some v → (VOpt.initModel d s).pi = v
        ∧ ((VOpt.fitStep tr)^[k] (VOpt.initModel d s)).pi = v)
    ∧ (s.fixSigmaBeta = some v → (VOpt.initModel d s).sigmaBeta = v
        ∧ ((VOpt.fitStep tr)^[k] (VOpt.initModel d s)).sigmaBeta = v)
    ∧ (s.fixSigmaEpsilon = some v → (VOpt.initModel d s).sigmaEpsilon = v
        ∧ ((VOpt.fitStep tr)^[k] (VOpt.initModel d s)).sigmaEpsilon = v)
    ∧ (t.fixPi = some v → (VSB.initModel d t).pi = v
        ∧ ((VSB.fitStep tr)^[k] (VSB.initModel d t)).pi = v)
    ∧ (t.fixSigmaBeta = some v → (VSB.initModel d t).sigmaBeta = v
        ∧ ((VSB.fitStep tr)^[k] (VSB.initModel d t)).sigmaBeta = v)
    ∧ (t.fixSigmaEpsilon = some v → (VSB.initModel d t).sigmaEpsilon = v
        ∧ ((VSB.fitStep tr)^[k] (VSB.initModel d t)).sigmaEpsilon = v) := by
  refine ⟨?_, ?_, ?_, ?_, ?_, ?_⟩
  · intro h
    have h0 : (VOpt.initModel d s).pi = s.fixPi.getD d.pi := rfl
    have h1 : (VOpt.initModel d s).pi = v := by rw [h0, h]; rfl
    refine ⟨h1, ?_⟩
    have h2 : (VOpt.initModel d s).fixPi = s.fixPi := rfl
    rw [(VOpt.iterate_pinned tr (VOpt.initModel d s) k).2.1 (by rw [h2, h]; simp), h1]
  · intro h
    have h0 : (VOpt.initModel d s).sigmaBeta = s.fixSigmaBeta.getD d.sigmaBeta := rfl
    have h1 : (VOpt.initModel d s).sigmaBeta = v := by rw [h0, h]; rfl
    refine ⟨h1, ?_⟩
    have h2 : (VOpt.initModel d s).fixSigmaBeta = s.fixSigmaBeta := rfl
    rw [(VOpt.iterate_pinned tr (VOpt.initModel d s) k).2.2.1 (by rw [h2, h]; simp), h1]
  · intro h
    have h0 : (VOpt.initModel d s).sigmaEpsilon = s.fixSigmaEpsilon.getD d.sigmaEpsilon := rfl
    have h1 : (VOpt.initModel d s).sigmaEpsilon = v := by rw [h0, h]; rfl
    refine ⟨h1, ?_⟩
    have h2 : (VOpt.initModel d s).fixSigmaEpsilon = s.fixSigmaEpsilon := rfl
    rw [(VOpt.iterate_pinned tr (VOpt.initModel d s) k).2.2.2 (by rw [h2, h]; simp), h1]
  · intro h
    have h0 : (VSB.initModel d t).pi = t.fixPi.getD d.pi := rfl
    have h1 : (VSB.initModel d t).pi = v := by rw [h0, h]; rfl
    refine ⟨h1, ?_⟩
    have h2 : (VSB.initModel d t).fixPi = t.fixPi := rfl
    rw [(VSB.sbIterate_pinned tr (VSB.initModel d t) k).2.1 (by rw [h2, h]; simp), h1]
  · intro h
    have h0 : (VSB.initModel d t).sigmaBeta = t.fixSigmaBeta.getD d.sigmaBeta := rfl
    have h1 : (VSB.initModel d t).sigmaBeta = v := by rw [h0, h]; rfl
    refine ⟨h1, ?_⟩
    have h2 : (VSB.initModel d t).fixSigmaBeta = t.fixSigmaBeta := rfl
    rw [(VSB.sbIterate_pinned tr (VSB.initModel d t) k).2.2.1 (by rw [h2, h]; simp), h1]
  · intro h
    have h0 : (VSB.initModel d t).sigmaEpsilon = t.fixSigmaEpsilon.getD d.sigmaEpsilon := rfl
    have h1 : (VSB.initModel d t).sigmaEpsilon = v := by rw [h0, h]; rfl
    refine ⟨h1, ?_⟩
    have h2 : (VSB.initModel d t).fixSigmaEpsilon = t.fixSigmaEpsilon := rfl
    rw [(VSB.sbIterate_pinned tr (VSB.initModel d t) k).2.2.2 (by rw [h2, h]; simp), h1]

/-- Witness for C5 at a fully pinned concrete state. -/
theorem claim_C5_witness :
    (VOpt.initModel dEx sFix).pi = 1/10
      ∧ ((VOpt.fitStep trEx)^[2] (VOpt.initModel dEx sFix)).pi = 1/10 :=
  (claim_C5 trEx dEx sFix tFix 2 (1/10)).1 rfl

theorem iterate_append_len {S : Type} (g : S → S) (f : S → List ℚ)
    (hap : ∀ u, ∃ x, f (g u) = f u ++ [x]) (s0 : S) :
    ∀ k, (f (g^[k] s0)).length = (f s0).length + k ∧
      (∀ j, j ≤ k → ∃ l, f (g^[k] s0) = f (g^[j] s0) ++ l) := by
  intro k
  induction k with
  | zero =>
    refine ⟨rfl, ?_⟩
    intro j hj
    rw [Nat.le_zero.mp hj]
    exact ⟨[], by simp⟩
  | succ k ih =>
    obtain ⟨x, hx⟩ := hap (g^[k] s0)
    constructor
    · rw [Function.iterate_succ_apply', hx, List.length_append, ih.1]
      simp
      omega
    · intro j hj
      by_cases hj2 : j = k + 1
      · rw [hj2]
        exact ⟨[], by simp⟩
      · obtain ⟨l, hl⟩ := ih.2 j (by omega)
        refine ⟨l ++ [x], ?_⟩
        rw [Function.iterate_succ_apply', hx, hl, List.append_assoc]

/-- C8: each call to m_step of the global-residual variant appends exactly
one value (the possibly pinned-and-unchanged current one) to each of the pi,
sigma_beta and sigma_epsilon histories; (re-)initialization resets them to
empty; hence after k fit iterations each history has length exactly k, and
histories are never truncated during a run (each iteration's history is a
prefix of every later one). -/
theorem claim_C8 (tr : TransFn) (d : Draws) (s : VOpt.State) (k : ℕ) :
    (∀ u : VOpt.State,
        (VOpt.mStep u).histPi = u.histPi ++ [(VOpt.mStep u).pi]
        ∧ (VOpt.mStep u).histSigmaBeta = u.histSigmaBeta ++ [(VOpt.mStep u).sigmaBeta]
        ∧ (VOpt.mStep u).histSigmaEpsilon = u.histSigmaEpsilon ++ [(VOpt.mStep u).sigmaEpsilon])
    ∧ ((VOpt.initModel d s).histPi = [] ∧ (VOpt.initModel d s).histSigmaBeta = []
        ∧ (VOpt.initModel d s).histSigmaEpsilon = [])
    ∧ (((VOpt.fitStep tr)^[k] (VOpt.initModel d s)).histPi.length = k
        ∧ ((VOpt.fitStep tr)^[k] (VOpt.initModel d s)).histSigmaBeta.length = k
        ∧ ((VOpt.fitStep tr)^[k] (VOpt.initModel d s)).histSigmaEpsilon.length = k)
    ∧ (∀ j, j ≤ k →
        (∃ l, ((VOpt.fitStep tr)^[k] (VOpt.initModel d s)).histPi
            = ((VOpt.fitStep tr)^[j] (VOpt.initModel d s)).histPi ++ l)
        ∧ (∃ l, ((VOpt.fitStep tr)^[k] (VOpt.initModel d s)).histSigmaBeta
            = ((VOpt.fitStep tr)^[j] (VOpt.initModel d s)).histSigmaBeta ++ l)
        ∧ (∃ l, ((VOpt.fitStep tr)^[k] (VOpt.initModel d s)).histSigmaEpsilon
            = ((VOpt.fitStep tr)^[j] (VOpt.initModel d s)).histSigmaEpsilon ++ l)) := by
  have hapPi : ∀ u : VOpt.State, ∃ x, (VOpt.fitStep tr u).histPi = u.histPi ++ [x] :=
    fun u => ⟨_, rfl⟩
  have hapSb : ∀ u : VOpt.State, ∃ x, (VOpt.fitStep tr u).histSigmaBeta
      = u.histSigmaBeta ++ [x] := fun u => ⟨_, rfl⟩
  have hapSe : ∀ u : VOpt.State, ∃ x, (VOpt.fitStep tr u).histSigmaEpsilon
      = u.histSigmaEpsilon ++ [x] := fun u => ⟨_, rfl⟩
  have hPi := iterate_append_len (VOpt.fitStep tr) (fun u => u.histPi) hapPi
    (VOpt.initModel d s) k
  have hSb := iterate_append_len (VOpt.fitStep tr) (fun u => u.histSigmaBeta) hapSb
    (VOpt.initModel d s) k
  have hSe := iterate_append_len (VOpt.fitStep tr) (fun u => u.histSigmaEpsilon) hapSe
    (VOpt.initModel d s) k
  refine ⟨fun u => ⟨rfl, rfl, rfl⟩, ⟨rfl, rfl, rfl⟩, ⟨?_, ?_, ?_⟩, ?_⟩
  · rw [hPi.1, show (VOpt.initModel d s).histPi = [] from rfl]
    simp
  · rw [hSb.1, show (VOpt.initModel d s).histSigmaBeta = [] from rfl]
    simp
  · rw [hSe.1, show (VOpt.initModel d s).histSigmaEpsilon = [] from rfl]
    simp
  · intro j hj
    exact ⟨hPi.2 j hj, hSb.2 j hj, hSe.2 j hj⟩

/-- Witness for C8 after one iteration on a concrete state. -/
theorem claim_C8_witness :
    ((VOpt.fitStep trEx)^[1] (VOpt.initModel dEx sEmpty)).histPi.length = 1 :=
  (claim_C8 trEx dEx sEmpty 1).2.2.1.1

/-- C7 (counterexample to the claim as stated): a raw input whose beta_hat
array is shorter than the declared block size is not rejected: construction
plus initialization completes normally, because the code contains no shape
validation. -/
theorem claim_C7_counterexample :
    badRaw.consistent = false
    ∧ (rawInitModel 1 3 false none none none dEx [badRaw]).isSome = true :=
  ⟨rfl, rfl⟩

/-- C7 (amended): initialization performs no shape validation: even when some
raw per-block array's length differs from that block's declared size, the
constructor-plus-initialize path completes normally, building the variational
state from the declared sizes and resetting the histories; nothing is
rejected before the iterations start. -/
theorem claim_C7_amended (n mTot : ℚ) (scale : Bool) (fp fsb fse : Option ℚ) (d : Draws)
    (raw : List RawBlock) (_hbad : ∃ r ∈ raw, r.consistent = false) :
    (rawInitModel n mTot scale fp fsb fse d raw).isSome = true
    ∧ ∀ st, rawInitModel n mTot scale fp fsb fse d raw = some st →
        st.blocks.length = raw.length ∧ st.histElbo = [] ∧ st.histPi = [] := by
  refine ⟨rfl, ?_⟩
  intro st hst
  rw [rawInitModel] at hst
  injection hst with hst2
  subst hst2
  refine ⟨?_, rfl, rfl⟩
  show (VOpt.initModel d _).blocks.length = raw.length
  simp [VOpt.initModel, VOpt.initHist, VOpt.initTheta, VOpt.initVar]

/-- Witness for the amended C7 at the concrete mismatched input. -/
theorem claim_C7_amended_witness :
    (rawInitModel 1 3 false none none none dEx [badRaw]).isSome = true :=
  (claim_C7_amended 1 3 false none none none dEx [badRaw]
    ⟨badRaw, List.mem_singleton.mpr rfl, rfl⟩).1

theorem fit_hist_len {S : Type} (step : S → S) (ehist : S → List ℚ) (s0 : S)
    (h0 : ehist s0 = []) (hstep : ∀ s, ∃ x, ehist (step s) = ehist s ++ [x]) :
    ∀ k, (ehist (step^[k] s0)).length = k := by
  intro k
  induction k with
  | zero => simp [h0]
  | succ k ih =>
    obtain ⟨x, hx⟩ := hstep (step^[k] s0)
    rw [Function.iterate_succ_apply', hx, List.length_append, ih]
    rfl

theorem fit_hist_getD {S : Type} (step : S → S) (ehist : S → List ℚ) (s0 : S)
    (h0 : ehist s0 = []) (hstep : ∀ s, ∃ x, ehist (step s) = ehist s ++ [x]) :
    ∀ k j, j < k → (ehist (step^[k+1] s0)).getD j 0 = (ehist (step^[k] s0)).getD j 0 := by
  intro k j hj
  obtain ⟨x, hx⟩ := hstep (step^[k] s0)
  rw [Function.iterate_succ_apply', hx,
    List.getD_append _ _ _ _ (by rw [fit_hist_len step ehist s0 h0 hstep k]; omega)]

theorem fitAux_pureLoop {S : Type} (step : S → S) (ehist : S → List ℚ) (tol : ℚ)
    (maxDrops : ℕ) (s0 : S) (h0 : ehist s0 = [])
    (hstep : ∀ s, ∃ x, ehist (step s) = ehist s ++ [x]) :
    ∀ fuel i count,
      (fitAux step ehist tol maxDrops fuel i count (step^[i] s0)).sig
        = pureLoop (elboAt step ehist s0) tol maxDrops fuel i count := by
  intro fuel
  induction fuel with
  | zero => intro i count; rfl
  | succ fuel ih =>
    intro i count
    simp only [fitAux, pureLoop]
    rw [show step (step^[i] s0) = step^[i+1] s0 from
      (Function.iterate_succ_apply' step i s0).symm]
    by_cases h2 : 2 ≤ i + 1
    · have h1 : 1 ≤ i := by omega
      have hcur : (ehist (step^[i+1] s0)).getD (i + 1 - 1) 0
          = elboAt step ehist s0 (i+1) := rfl
      have hprev : (ehist (step^[i+1] s0)).getD (i + 1 - 2) 0
          = elboAt step ehist s0 i := by
        have h3 := fit_hist_getD step ehist s0 h0 hstep i (i-1) (by omega)
        have h4 : i + 1 - 2 = i - 1 := by omega
        rw [h4, h3]
        rfl
      simp only [if_pos h2, hcur, hprev]
      split_ifs <;> first
        | rfl
        | exact ih (i+1) _
    · simp only [if_neg h2]
      exact ih (i+1) count

theorem fitRun_pureLoop {S : Type} (step : S → S) (ehist : S → List ℚ) (tol : ℚ)
    (maxDrops maxIter : ℕ) (s0 : S) (h0 : ehist s0 = [])
    (hstep : ∀ s, ∃ x, ehist (step s) = ehist s ++ [x]) :
    (fitRun step ehist tol maxDrops maxIter s0).sig
      = pureLoop (elboAt step ehist s0) tol maxDrops maxIter 0 0 := by
  have h := fitAux_pureLoop step ehist tol maxDrops s0 h0 hstep maxIter 0 0
  rwa [Function.iterate_zero_apply] at h

theorem dropsF_zero (f : ℕ → ℚ) : dropsF f 0 = 0 := by
  simp [dropsF]

theorem dropsF_one (f : ℕ → ℚ) : dropsF f 1 = 0 := by
  rw [dropsF, Finset.Icc_eq_empty (by omega : ¬ (2:ℕ) ≤ 1)]
  simp

theorem dropsF_succ (f : ℕ → ℚ) (i : ℕ) (h : 1 ≤ i) :
    dropsF f (i+1) = dropsF f i + (if f (i+1) < f i then 1 else 0) := by
  have hset : Finset.Icc 2 (i+1) = insert (i+1) (Finset.Icc 2 i) := by
    ext k
    simp only [Finset.mem_Icc, Finset.mem_insert]
    omega
  have hnot : (i+1) ∉ (Finset.Icc 2 i).filter (fun j => f j < f (j-1)) := by
    intro hmem
    rw [Finset.mem_filter, Finset.mem_Icc] at hmem
    exact absurd hmem.1.2 (by omega)
  rw [dropsF, dropsF, hset, Finset.filter_insert]
  simp only [Nat.add_sub_cancel]
  split_ifs with hd
  · rw [Finset.card_insert_of_not_mem hnot]
  · simp

theorem pure_never_past (f : ℕ → ℚ) (tol : ℚ) (maxDrops : ℕ) :
    ∀ fuel i count, count = dropsF f i → count ≤ maxDrops →
      ∀ m, i < m → maxDrops < dropsF f m →
        (pureLoop f tol maxDrops fuel i count).1 ≤ m := by
  intro fuel
  induction fuel with
  | zero =>
    intro i count _ _ m him _
    show i ≤ m
    omega
  | succ fuel ih =>
    intro i count hc hle m him hd
    simp only [pureLoop]
    by_cases h2 : 2 ≤ i + 1
    · have h1 : 1 ≤ i := by omega
      simp only [if_pos h2]
      by_cases hdrop : f (i+1) < f i
      · simp only [if_pos hdrop]
        have hc2 : count + 1 = dropsF f (i+1) := by
          rw [dropsF_succ f i h1, if_pos hdrop, hc]
        split_ifs with hA hB
        · show i + 1 ≤ m
          omega
        · show i + 1 ≤ m
          omega
        · have hle2 : count + 1 ≤ maxDrops := by omega
          rcases Nat.lt_or_ge (i+1) m with him2 | him2
          · exact ih (i+1) (count+1) hc2 hle2 m him2 hd
          · exfalso
            have hmi : m = i + 1 := by omega
            rw [hmi, ← hc2] at hd
            omega
      · simp only [if_neg hdrop]
        have hc2 : count = dropsF f (i+1) := by
          rw [dropsF_succ f i h1, if_neg hdrop, hc]
          simp
        split_ifs with hA hB
        · show i + 1 ≤ m
          omega
        · show i + 1 ≤ m
          omega
        · rcases Nat.lt_or_ge (i+1) m with him2 | him2
          · exact ih (i+1) count hc2 hle m him2 hd
          · exfalso
            have hmi : m = i + 1 := by omega
            rw [hmi, ← hc2] at hd
            omega
    · simp only [if_neg h2]
      have hi0 : i = 0 := by omega
      subst hi0
      have hc1 : count = dropsF f 1 := by
        rw [dropsF_one]
        rw [dropsF_zero] at hc
        exact hc
      rcases Nat.lt_or_ge 1 m with him2 | him2
      · exact ih 1 count hc1 hle m him2 hd
      · exfalso
        have hm1 : m = 1 := by omega
        rw [hm1, dropsF_one] at hd
        omega

theorem pure_reach (f : ℕ → ℚ) (tol : ℚ) (maxDrops : ℕ) (T : ℕ) (hT : 2 ≤ T) :
    ∀ fuel i count, count = dropsF f i → count ≤ maxDrops →
      (∀ j, 2 ≤ j → i < j → j < T → ¬(|f j - f (j-1)| ≤ tol) ∧ dropsF f j ≤ maxDrops) →
      i < T → T ≤ i + fuel →
      pureLoop f tol maxDrops fuel i count
        = pureLoop f tol maxDrops (fuel - (T - 1 - i)) (T-1) (dropsF f (T-1)) := by
  intro fuel
  induction fuel with
  | zero =>
    intro i count _ _ _ hiT hTf
    omega
  | succ fuel ih =>
    intro i count hc hle hns hiT hTf
    by_cases hiT1 : i + 1 = T
    · have e2 : fuel + 1 - (T - 1 - i) = fuel + 1 := by omega
      have e1 : T - 1 = i := by omega
      rw [e2, e1, ← hc]
    · have hi1T : i + 1 < T := by omega
      by_cases h2 : 2 ≤ i + 1
      · have h1 : 1 ≤ i := by omega
        have hnsi := hns (i+1) h2 (by omega) hi1T
        simp only [Nat.add_sub_cancel] at hnsi
        simp only [pureLoop, if_pos h2]
        by_cases hdrop : f (i+1) < f i
        · simp only [if_pos hdrop]
          have hc2 : count + 1 = dropsF f (i+1) := by
            rw [dropsF_succ f i h1, if_pos hdrop, hc]
          rw [if_neg hnsi.1,
            if_neg (show ¬(maxDrops < count + 1) from by
              rw [hc2]
              exact not_lt.mpr hnsi.2)]
          have e3 : fuel + 1 - (T - 1 - i) = fuel - (T - 1 - (i+1)) := by omega
          rw [e3]
          exact ih (i+1) (count+1) hc2 (by rw [hc2]; exact hnsi.2)
            (fun j hj2 hjgt hjT => hns j hj2 (by omega) hjT) hi1T (by omega)
        · simp only [if_neg hdrop]
          have hc2 : count = dropsF f (i+1) := by
            rw [dropsF_succ f i h1, if_neg hdrop, hc]
            simp
          rw [if_neg hnsi.1, if_neg (show ¬(maxDrops < count) from by omega)]
          have e3 : fuel + 1 - (T - 1 - i) = fuel - (T - 1 - (i+1)) := by omega
          rw [e3]
          exact ih (i+1) count hc2 hle
            (fun j hj2 hjgt hjT => hns j hj2 (by omega) hjT) hi1T (by omega)
      · have hi0 : i = 0 := by omega
        subst hi0
        simp only [pureLoop, if_neg h2]
        have hc1 : count = dropsF f 1 := by
          rw [dropsF_one]
          rw [dropsF_zero] at hc
          exact hc
        have e3 : fuel + 1 - (T - 1 - 0) = fuel - (T - 1 - 1) := by omega
        rw [e3]
        exact ih 1 count hc1 hle (fun j hj2 hjgt hjT => hns j hj2 (by omega) hjT)
          (by omega) (by omega)

theorem pure_at_T (f : ℕ → ℚ) (tol : ℚ) (maxDrops : ℕ) (T : ℕ) (hT : 2 ≤ T)
    (fuel : ℕ) (hfuel : 1 ≤ fuel) :
    ((|f T - f (T-1)| ≤ tol →
      pureLoop f tol maxDrops fuel (T-1) (dropsF f (T-1))
        = (T, dropsF f T, FitStatus.converged))
    ∧ (¬(|f T - f (T-1)| ≤ tol) → maxDrops < dropsF f T →
      pureLoop f tol maxDrops fuel (T-1) (dropsF f (T-1))
        = (T, dropsF f T, FitStatus.stalled))) := by
  obtain ⟨fuel2, rfl⟩ : ∃ f2, fuel = f2 + 1 := ⟨fuel - 1, by omega⟩
  obtain ⟨T2, rfl⟩ : ∃ t2, T = t2 + 2 := ⟨T - 2, by omega⟩
  have e1 : T2 + 2 - 1 = T2 + 1 := by omega
  rw [e1]
  simp only [pureLoop]
  have h2 : 2 ≤ T2 + 1 + 1 := by omega
  simp only [if_pos h2]
  have e2 : T2 + 1 + 1 = T2 + 2 := by omega
  rw [e2]
  have hc2 : (if f (T2+2) < f (T2+1) then dropsF f (T2+1) + 1 else dropsF f (T2+1))
      = dropsF f (T2+2) := by
    rw [dropsF_succ f (T2+1) (by omega)]
    split_ifs <;> simp
  rw [hc2]
  constructor
  · intro hconv
    rw [if_pos hconv]
  · intro hnc hstall
    rw [if_neg hnc, if_pos hstall]

/-- C6: in the fit driver loop (fitAux instantiated by both variants' fit),
(a) the loop never runs past an iteration at which the number of recorded
ELBO decreases exceeds max_elbo_drops: for every m where the drop count
exceeds the threshold, the loop has stopped at or before m (a graceful stop,
not an error); and (b) with max_elbo_drops = 0, a first ELBO decrease whose
magnitude exceeds tol stops the fit immediately at exactly that iteration,
in the stalled state. -/
theorem claim_C6 {S : Type} (step : S → S) (ehist : S → List ℚ) (tol : ℚ)
    (maxDrops maxIter : ℕ) (s0 : S) (h0 : ehist s0 = [])
    (hstep : ∀ s, ∃ x, ehist (step s) = ehist s ++ [x]) :
    (∀ m, maxDrops < dropsUpTo step ehist s0 m →
        (fitRun step ehist tol maxDrops maxIter s0).stopIter ≤ m)
    ∧ (maxDrops = 0 → ∀ T, 2 ≤ T → T ≤ maxIter →
        (∀ j, 2 ≤ j → j < T →
          ¬(|elboAt step ehist s0 j - elboAt step ehist s0 (j-1)| ≤ tol)
            ∧ dropsUpTo step ehist s0 j = 0) →
        elboAt step ehist s0 T < elboAt step ehist s0 (T-1) →
        ¬(|elboAt step ehist s0 T - elboAt step ehist s0 (T-1)| ≤ tol) →
        (fitRun step ehist tol maxDrops maxIter s0).stopIter = T
          ∧ (fitRun step ehist tol maxDrops maxIter s0).status = FitStatus.stalled) := by
  have hsig := fitRun_pureLoop step ehist tol maxDrops maxIter s0 h0 hstep
  constructor
  · intro m hd
    rcases Nat.eq_zero_or_pos m with rfl | hm
    · rw [dropsUpTo, dropsF_zero] at hd
      omega
    · have h := pure_never_past (elboAt step ehist s0) tol maxDrops maxIter 0 0
        (dropsF_zero _).symm (Nat.zero_le _) m hm hd
      have hit : (fitRun step ehist tol maxDrops maxIter s0).stopIter
          = (pureLoop (elboAt step ehist s0) tol maxDrops maxIter 0 0).1 :=
        congrArg Prod.fst hsig
      rw [hit]
      exact h
  · intro hmd T hT hTm hns hdropT hnc
    subst hmd
    have hT1 : dropsF (elboAt step ehist s0) (T-1) = 0 := by
      by_cases hT2 : T = 2
      · rw [hT2]
        exact dropsF_one _
      · exact (hns (T-1) (by omega) (by omega)).2
    have hreach := pure_reach (elboAt step ehist s0) tol 0 T hT maxIter 0 0
      (dropsF_zero _).symm (Nat.zero_le _)
      (fun j hj2 _ hjT => ⟨(hns j hj2 hjT).1, le_of_eq (hns j hj2 hjT).2⟩)
      (by omega) (by omega)
    simp only [Nat.sub_zero] at hreach
    have hsucc : dropsF (elboAt step ehist s0) T
        = dropsF (elboAt step ehist s0) (T-1) + 1 := by
      have e : T - 1 + 1 = T := by omega
      have h := dropsF_succ (elboAt step ehist s0) (T-1) (by omega)
      rw [e] at h
      rw [h, if_pos hdropT]
    have hstall := (pure_at_T (elboAt step ehist s0) tol 0 T hT (maxIter - (T-1))
        (by omega)).2 hnc (by rw [hsucc, hT1]; omega)
    have hfinal : (fitRun step ehist tol 0 maxIter s0).sig
        = (T, dropsF (elboAt step ehist s0) T, FitStatus.stalled) := by
      rw [hsig, hreach, hstall]
    exact ⟨congrArg Prod.fst hfinal, congrArg (fun p => p.2.2) hfinal⟩

/-- C10: in the fit driver loop, the convergence test has precedence over the
instability test: if the loop is still running at iteration T (no earlier
convergence or stall) and the ELBO change at T has magnitude at most tol,
the fit stops at T in the converged state, regardless of how the drop
counter compares to max_elbo_drops at T; the final drop counter still counts
iteration T's decrease (when the small change was a decrease). -/
theorem claim_C10 {S : Type} (step : S → S) (ehist : S → List ℚ) (tol : ℚ)
    (maxDrops maxIter : ℕ) (s0 : S) (h0 : ehist s0 = [])
    (hstep : ∀ s, ∃ x, ehist (step s) = ehist s ++ [x])
    (T : ℕ) (hT : 2 ≤ T) (hTm : T ≤ maxIter)
    (hns : ∀ j, 2 ≤ j → j < T →
        ¬(|elboAt step ehist s0 j - elboAt step ehist s0 (j-1)| ≤ tol)
          ∧ dropsUpTo step ehist s0 j ≤ maxDrops)
    (hconv : |elboAt step ehist s0 T - elboAt step ehist s0 (T-1)| ≤ tol) :
    (fitRun step ehist tol maxDrops maxIter s0).status = FitStatus.converged
    ∧ (fitRun step ehist tol maxDrops maxIter s0).stopIter = T
    ∧ (fitRun step ehist tol maxDrops maxIter s0).dropCount
        = dropsUpTo step ehist s0 T := by
  have hsig := fitRun_pureLoop step ehist tol maxDrops maxIter s0 h0 hstep
  have hreach := pure_reach (elboAt step ehist s0) tol maxDrops T hT maxIter 0 0
    (dropsF_zero _).symm (Nat.zero_le _)
    (fun j hj2 _ hjT => ⟨(hns j hj2 hjT).1, (hns j hj2 hjT).2⟩)
    (by omega) (by omega)
  simp only [Nat.sub_zero] at hreach
  have hconv2 := (pure_at_T (elboAt step ehist s0) tol maxDrops T hT (maxIter - (T-1))
      (by omega)).1 hconv
  have hfinal : (fitRun step ehist tol maxDrops maxIter s0).sig
      = (T, dropsF (elboAt step ehist s0) T, FitStatus.converged) := by
    rw [hsig, hreach, hconv2]
  exact ⟨congrArg (fun p => p.2.2) hfinal, congrArg Prod.fst hfinal,
    congrArg (fun p => p.2.1) hfinal⟩

/-- Witness for C6: with the abstract list model, max_elbo_drops = 0 and an
ELBO sequence 10, 0 (one drop of magnitude 10 > tol = 1 at iteration 2), the
fit stops at iteration 2 in the stalled state. -/
theorem claim_C6_witness :
    (fitRun (seqStep fC6) id 1 0 5 ([] : List ℚ)).stopIter = 2
      ∧ (fitRun (seqStep fC6) id 1 0 5 ([] : List ℚ)).status = FitStatus.stalled := by
  have hE1 : elboAt (seqStep fC6) id ([] : List ℚ) 1 = 10 := by
    simp [elboAt, seqStep, fC6]
  have hE2 : elboAt (seqStep fC6) id ([] : List ℚ) 2 = 0 := by
    simp [elboAt, show (2:ℕ) = 1 + 1 from rfl, Function.iterate_succ_apply',
      seqStep, fC6]
  exact (claim_C6 (seqStep fC6) id 1 0 5 [] rfl (fun s => ⟨_, rfl⟩)).2 rfl 2
    (by norm_num) (by norm_num)
    (fun j hj2 hjT => absurd hjT (by omega))
    (show elboAt (seqStep fC6) id [] 2 < elboAt (seqStep fC6) id [] 1 by
      rw [hE1, hE2]
      norm_num)
    (show ¬(|elboAt (seqStep fC6) id [] 2 - elboAt (seqStep fC6) id [] 1| ≤ 1) by
      rw [hE1, hE2]
      norm_num)

/-- Witness for C10: ELBO sequence 10, 19/2 with tol = 1 and
max_elbo_drops = 0: the drop at iteration 2 has magnitude 1/2 <= tol, so the
fit converges at iteration 2 (while still counting the drop). -/
theorem claim_C10_witness :
    (fitRun (seqStep fC10) id 1 0 5 ([] : List ℚ)).status = FitStatus.converged
    ∧ (fitRun (seqStep fC10) id 1 0 5 ([] : List ℚ)).stopIter = 2
    ∧ (fitRun (seqStep fC10) id 1 0 5 ([] : List ℚ)).dropCount
        = dropsUpTo (seqStep fC10) id [] 2 := by
  have hE1 : elboAt (seqStep fC10) id ([] : List ℚ) 1 = 10 := by
    simp [elboAt, seqStep, fC10]
  have hE2 : elboAt (seqStep fC10) id ([] : List ℚ) 2 = 19/2 := by
    simp [elboAt, show (2:ℕ) = 1 + 1 from rfl, Function.iterate_succ_apply',
      seqStep, fC10]
  exact claim_C10 (seqStep fC10) id 1 0 5 [] rfl (fun s => ⟨_, rfl⟩) 2
    (by norm_num) (by norm_num)
    (fun j hj2 hjT => absurd hjT (by omega))
    (show |elboAt (seqStep fC10) id [] 2 - elboAt (seqStep fC10) id [] 1| ≤ 1 by
      rw [hE1, hE2]
      norm_num [abs_le])
